import Mathlib

/-!
Verification of `latex_cleanup.py`, a four-pass LaTeX cleanup pipeline.

A document is embedded as a `List Char`.  Each regex-based rewrite pass of the
source is embedded as a left-to-right scanner (`subnScan`) parameterized by a
matcher: the matcher tries to recognize the pass's pattern at the current
position exactly the way the non-greedy Python pattern would (literal begin
marker, then for the lazy `.*?` the span up to the nearest end marker), and on
success returns the replacement text, the remaining input after the match, and
the count increment for this match.  `re.subn` resumes scanning after the end
of a match and never rescans replacement text, which is what `subnScan` does.

Whitespace (`\s` in Python `str` patterns, and `str.strip`) is modelled by
`isSpaceChar`, covering the ASCII and Unicode whitespace characters.
-/

set_option maxRecDepth 20000

abbrev LDoc := List Char

/-- The whitespace class of Python's `\s` (for `str` patterns) and `str.strip`. -/
def isSpaceChar (c : Char) : Bool :=
  c == ' ' || c == '\t' || c == '\n' || c == '\r' || c == '\x0b' || c == '\x0c' ||
  c == '\x1c' || c == '\x1d' || c == '\x1e' || c == '\x1f' || c == '\x85' || c == '\xa0' ||
  c == '\u1680' || c == '\u2000' || c == '\u2001' || c == '\u2002' || c == '\u2003' ||
  c == '\u2004' || c == '\u2005' || c == '\u2006' || c == '\u2007' || c == '\u2008' ||
  c == '\u2009' || c == '\u200a' || c == '\u2028' || c == '\u2029' || c == '\u202f' ||
  c == '\u205f' || c == '\u3000'

/-- Python's `str.strip()`: remove leading and trailing whitespace.
This is also what the greedy `\s*` fringes around a lazy group capture do. -/
def stripChars (l : LDoc) : LDoc :=
  ((l.dropWhile isSpaceChar).reverse.dropWhile isSpaceChar).reverse

/-- Literal begin marker of `QUOTE_BLOCK_PATTERN`. -/
def beginQuote : LDoc := "\\begin{quote}".data

/-- Literal end marker of `QUOTE_BLOCK_PATTERN`. -/
def endQuote : LDoc := "\\end{quote}".data

/-- Literal head of `LONGTABLE_PATTERN` up to and including the brace opening
the column-specification argument. -/
def beginLongtable : LDoc := "\\begin{longtable}\x7b".data

/-- Literal end marker of `LONGTABLE_PATTERN`. -/
def endLongtable : LDoc := "\\end{longtable}".data

/-- Literal head of `MINIPAGE_PATTERN` up to and including the bracket opening
the first argument. -/
def beginMinipage : LDoc := "\\begin{minipage}[".data

/-- Literal end marker of `MINIPAGE_PATTERN`. -/
def endMinipage : LDoc := "\\end{minipage}".data

/-- Literal list-item marker of `BIBITEM_QUOTE_PATTERN`. -/
def itemMarker : LDoc := "\\item".data

/-- The module-level `UNICODE_MATH_REPLACEMENTS` table, in insertion order.
The keys are the exact code points of the source file (the first one is
U+01AE).  The values are the raw strings `r"\\tau"` etc., i.e. each starts
with two literal backslash characters. -/
def UNICODE_MATH_REPLACEMENTS : List (Char × LDoc) :=
  [('Ʈ', "\\\\tau".data),
   ('𝒵', "\\\\mathcal{Z}".data),
   ('ℤ', "\\\\mathbb{Z}".data),
   ('ℝ', "\\\\mathbb{R}".data),
   ('ℚ', "\\\\mathbb{Q}".data),
   ('ℕ', "\\\\mathbb{N}".data)]

/-- Split a list at the first (leftmost) occurrence of `pat`, returning the
part before the occurrence and the part after it.  `none` when `pat` does not
occur.  This is how a lazy `.*?` followed by a literal end marker selects the
nearest end marker. -/
def splitFirst (pat : LDoc) : LDoc → Option (LDoc × LDoc)
  | [] => if pat <+: ([] : LDoc) then some ([], []) else none
  | c :: rest =>
    if pat <+: (c :: rest) then some ([], (c :: rest).drop pat.length)
    else (splitFirst pat rest).map (fun p => (c :: p.1, p.2))

/-- Number of (possibly overlapping) occurrence positions of `pat`. -/
def countOcc (pat : LDoc) : LDoc → Nat
  | [] => if pat <+: ([] : LDoc) then 1 else 0
  | c :: rest => (if pat <+: (c :: rest) then 1 else 0) + countOcc pat rest

/-- Generic `re.subn`-style scanner: try the matcher at every position from the
left; on a match emit its replacement, add its count increment and resume after
the match, otherwise keep the character and move one position right.  The fuel
argument is always instantiated with the length of the list, which suffices
because every match of the matchers below consumes at least one character. -/
def subnScan (m : LDoc → Option (LDoc × LDoc × Nat)) : Nat → LDoc → LDoc × Nat
  | 0, l => (l, 0)
  | _ + 1, [] => ([], 0)
  | fuel + 1, c :: rest =>
    match m (c :: rest) with
    | some (r, p, k) => (r ++ (subnScan m fuel p).1, (subnScan m fuel p).2 + k)
    | none => (c :: (subnScan m fuel rest).1, (subnScan m fuel rest).2)

/-- Matcher for `QUOTE_BLOCK_PATTERN` at the current position: the begin
marker, then (lazily) everything up to the nearest end marker; the greedy
`\s*` fringes make the captured group the stripped span, and the replacer
additionally calls `.strip()`, so the replacement is `stripChars` of the span. -/
def quoteMatchAt (l : LDoc) : Option (LDoc × LDoc × Nat) :=
  if beginQuote <+: l then
    match splitFirst endQuote (l.drop beginQuote.length) with
    | some (mid, post) => some (stripChars mid, post, 1)
    | none => none
  else none

/-- `remove_quote_blocks` of the source. -/
def remove_quote_blocks (l : LDoc) : LDoc × Nat :=
  subnScan quoteMatchAt l.length l

/-- Python's `text.replace(key, rep)` for a single-character needle. -/
def replaceChar (key : Char) (rep : LDoc) : LDoc → LDoc
  | [] => []
  | c :: rest => (if c = key then rep else [c]) ++ replaceChar key rep rest

/-- One iteration of the loop body of `normalize_unicode_math`:
`if char in text: count += text.count(char); text = text.replace(char, repl)`. -/
def applyEntry (st : LDoc × Nat) (e : Char × LDoc) : LDoc × Nat :=
  if e.1 ∈ st.1 then (replaceChar e.1 e.2 st.1, st.2 + st.1.count e.1) else st

/-- `normalize_unicode_math` of the source. -/
def normalize_unicode_math (l : LDoc) : LDoc × Nat :=
  UNICODE_MATH_REPLACEMENTS.foldl applyEntry (l, 0)

/-- Expect the next character to be `c`, consuming it. -/
def expectChar (c : Char) : LDoc → Option LDoc
  | x :: rest => if x = c then some rest else none
  | [] => none

/-- Matcher for `MINIPAGE_PATTERN` at the current position: the begin marker
with `[`, a first argument free of `]`, then `]{`, a second argument free of
`}`, then `}`, then (lazily) a body up to the nearest end marker; replaced by
the stripped body. -/
def minipageMatchAt (l : LDoc) : Option (LDoc × LDoc × Nat) :=
  if beginMinipage <+: l then
    (expectChar ']' ((l.drop beginMinipage.length).dropWhile (fun c => c != ']'))).bind fun r2 =>
    (expectChar '\x7b' r2).bind fun r3 =>
    (expectChar '\x7d' (r3.dropWhile (fun c => c != '\x7d'))).bind fun r4 =>
    (splitFirst endMinipage r4).bind fun q =>
    some (stripChars q.1, q.2, 1)
  else none

/-- `_strip_minipages` of the source (the count of the underlying `subn` is
discarded there). -/
def strip_minipages (l : LDoc) : LDoc :=
  (subnScan minipageMatchAt l.length l).1

/-- Matcher for `LONGTABLE_PATTERN` at the current position: the begin marker,
a column specification free of `}` closed by `}`, then (lazily) a body up to
the nearest end marker.  The replacer re-emits the table with the minipage
wrappers stripped from the body and counts the table exactly when the stripped
body differs from the original body. -/
def longtableMatchAt (l : LDoc) : Option (LDoc × LDoc × Nat) :=
  if beginLongtable <+: l then
    (expectChar '\x7d' ((l.drop beginLongtable.length).dropWhile (fun c => c != '\x7d'))).bind
      fun r2 =>
    (splitFirst endLongtable r2).bind fun q =>
    some (beginLongtable ++ (l.drop beginLongtable.length).takeWhile (fun c => c != '\x7d') ++
            '\x7d' :: (strip_minipages q.1 ++ endLongtable),
          q.2,
          if strip_minipages q.1 = q.1 then 0 else 1)
  else none

/-- `simplify_longtables` of the source. -/
def simplify_longtables (l : LDoc) : LDoc × Nat :=
  subnScan longtableMatchAt l.length l

/-- Matcher for `BIBITEM_QUOTE_PATTERN` at the current position: the item
marker, greedy whitespace, the quote begin marker, then (lazily) a body up to
the nearest quote end marker; replaced by the item marker, a space, and the
stripped body. -/
def bibitemMatchAt (l : LDoc) : Option (LDoc × LDoc × Nat) :=
  if itemMarker <+: l then
    if beginQuote <+: ((l.drop itemMarker.length).dropWhile isSpaceChar) then
      match splitFirst endQuote
          (((l.drop itemMarker.length).dropWhile isSpaceChar).drop beginQuote.length) with
      | some (mid, post) => some (itemMarker ++ ' ' :: stripChars mid, post, 1)
      | none => none
    else none
  else none

/-- `normalize_bibliography_items` of the source. -/
def normalize_bibliography_items (l : LDoc) : LDoc × Nat :=
  subnScan bibitemMatchAt l.length l

/-- The `CleanupStats` dataclass of the source. -/
structure CleanupStats where
  removed_quote_blocks : Nat
  unicode_replacements : Nat
  simplified_longtables : Nat
  normalized_bibliography_items : Nat
deriving DecidableEq

/-- `cleanup_latex` of the source: the four passes in their fixed order,
threading the document, aggregating the four counts. -/
def cleanup_latex (l : LDoc) : LDoc × CleanupStats :=
  let q := remove_quote_blocks l
  let u := normalize_unicode_math q.1
  let s := simplify_longtables u.1
  let b := normalize_bibliography_items s.1
  (b.1, ⟨q.2, u.2, s.2, b.2⟩)

/-!  Generic facts about prefixes and occurrence counting. -/

theorem prefix_append_long {l₁ A z : LDoc} (h : l₁ <+: A ++ z) (hlen : l₁.length ≤ A.length) :
    l₁ <+: A := by
  have h1 : l₁ = (A ++ z).take l₁.length := List.prefix_iff_eq_take.mp h
  rw [List.take_append_eq_append_take, Nat.sub_eq_zero_of_le hlen, List.take_zero,
    List.append_nil] at h1
  rw [h1]
  exact List.take_prefix _ _

theorem prefix_comparable {pat u rest : LDoc} (h : pat <+: u ++ rest) :
    u <+: pat ∨ pat <+: u := by
  rcases Nat.le_total u.length pat.length with hle | hle
  · exact Or.inl (List.prefix_of_prefix_length_le (List.prefix_append u rest) h hle)
  · exact Or.inr (prefix_append_long h hle)

theorem countOcc_nil (pat : LDoc) : countOcc pat [] = if pat <+: ([] : LDoc) then 1 else 0 :=
  rfl

theorem countOcc_cons (pat : LDoc) (c : Char) (rest : LDoc) :
    countOcc pat (c :: rest) = (if pat <+: (c :: rest) then 1 else 0) + countOcc pat rest :=
  rfl

theorem not_prefix_drop_of_countOcc {pat x : LDoc} (hx : countOcc pat x = 0) :
    ∀ i, ¬ pat <+: x.drop i := by
  induction x with
  | nil =>
    intro i hp
    rw [countOcc_nil] at hx
    rw [List.drop_nil] at hp
    rw [if_pos hp] at hx
    omega
  | cons c rest ih =>
    rw [countOcc_cons] at hx
    have h2 : countOcc pat rest = 0 := by omega
    intro i hp
    match i with
    | 0 =>
      rw [List.drop_zero] at hp
      rw [if_pos hp] at hx
      omega
    | j + 1 => exact ih h2 j hp

theorem countOcc_ne_zero_of_prefix_drop {pat x : LDoc} {i : Nat} (h : pat <+: x.drop i) :
    countOcc pat x ≠ 0 :=
  fun hx => not_prefix_drop_of_countOcc hx i h

/-- Two lists neither of which is a prefix of the other. -/
def Incomp (u v : LDoc) : Prop := ¬ u <+: v ∧ ¬ v <+: u

instance (u v : LDoc) : Decidable (Incomp u v) := by unfold Incomp; infer_instance

theorem not_prefix_append_of_incomp {pat u : LDoc} (h : Incomp pat u) (rest : LDoc) :
    ¬ pat <+: u ++ rest :=
  fun hp => (prefix_comparable hp).elim h.2 h.1

theorem countOcc_append_of_incomp {pat : LDoc} :
    ∀ {blk : LDoc}, (∀ i, i < blk.length → Incomp pat (blk.drop i)) →
      ∀ t, countOcc pat (blk ++ t) = countOcc pat t := by
  intro blk
  induction blk with
  | nil => intro _ t; simp
  | cons c blk' ih =>
    intro hinc t
    have h0 : Incomp pat (c :: blk') := by simpa using hinc 0 (by simp)
    show countOcc pat (c :: (blk' ++ t)) = countOcc pat t
    rw [countOcc_cons]
    have hnp : ¬ pat <+: c :: (blk' ++ t) := by
      have := not_prefix_append_of_incomp h0 t
      simpa using this
    rw [if_neg hnp, ih (fun i hi => by simpa using hinc (i + 1) (by simpa using hi)) t]
    omega

theorem countOcc_self_append {pat : LDoc} (hne : pat ≠ [])
    (hself : ∀ i, i < pat.length → 0 < i → Incomp pat (pat.drop i)) (t : LDoc) :
    countOcc pat (pat ++ t) = countOcc pat t + 1 := by
  obtain ⟨c, pt, rfl⟩ := List.exists_cons_of_ne_nil hne
  show countOcc (c :: pt) (c :: (pt ++ t)) = _
  rw [countOcc_cons]
  have hp : (c :: pt) <+: c :: (pt ++ t) := by
    simpa using List.prefix_append (c :: pt) t
  rw [if_pos hp,
    countOcc_append_of_incomp (fun i hi => by
      simpa using hself (i + 1) (by simpa using hi) (by omega)) t]
  omega

/-!  Facts about `splitFirst`. -/

theorem splitFirst_eq {pat : LDoc} :
    ∀ {l b a : LDoc}, splitFirst pat l = some (b, a) → l = b ++ (pat ++ a) := by
  intro l
  induction l with
  | nil =>
    intro b a h
    unfold splitFirst at h
    split at h
    · obtain ⟨rfl, rfl⟩ : ([] : LDoc) = b ∧ ([] : LDoc) = a := by
        constructor <;> [exact congrArg Prod.fst (Option.some.inj h);
          exact congrArg Prod.snd (Option.some.inj h)]
      have : pat = [] := List.prefix_nil.mp (by assumption)
      simp [this]
    · exact absurd h (by simp)
  | cons c rest ih =>
    intro b a h
    unfold splitFirst at h
    split at h
    · have hinj := Option.some.inj h
      obtain ⟨rfl, rfl⟩ : ([] : LDoc) = b ∧ (c :: rest).drop pat.length = a := by
        constructor <;> [exact congrArg Prod.fst hinj; exact congrArg Prod.snd hinj]
      obtain ⟨t, ht⟩ := (by assumption : pat <+: c :: rest)
      rw [← ht, List.drop_left, List.nil_append]
    · cases hr : splitFirst pat rest with
      | none => rw [hr] at h; exact absurd h (by simp)
      | some p =>
        obtain ⟨b', a'⟩ := p
        rw [hr] at h
        have hinj := Option.some.inj h
        obtain ⟨rfl, rfl⟩ : c :: b' = b ∧ a' = a := by
          constructor <;> [exact congrArg Prod.fst hinj; exact congrArg Prod.snd hinj]
        have := ih hr
        simp [this]

theorem splitFirst_append {pat : LDoc} (hne : pat ≠ []) :
    ∀ (x z : LDoc), (∀ i, i < x.length → ¬ pat <+: (x.drop i ++ (pat ++ z))) →
      splitFirst pat (x ++ (pat ++ z)) = some (x, z) := by
  intro x
  induction x with
  | nil =>
    intro z _
    obtain ⟨c, pt, rfl⟩ := List.exists_cons_of_ne_nil hne
    rw [List.nil_append]
    show splitFirst (c :: pt) (c :: (pt ++ z)) = _
    unfold splitFirst
    have hp : (c :: pt) <+: c :: (pt ++ z) := by
      simpa using List.prefix_append (c :: pt) z
    rw [if_pos hp]
    have : (c :: (pt ++ z)).drop (c :: pt).length = z := by
      have := List.drop_left (c :: pt) z
      simpa using this
    rw [this]
  | cons c x' ih =>
    intro z hx
    show splitFirst pat (c :: (x' ++ (pat ++ z))) = _
    unfold splitFirst
    have hnp : ¬ pat <+: c :: (x' ++ (pat ++ z)) := by
      have := hx 0 (by simp)
      simpa using this
    rw [if_neg hnp, ih z (fun i hi => by simpa using hx (i + 1) (by simpa using hi))]
    rfl

theorem splitFirst_eq_none {pat : LDoc} (hne : pat ≠ []) :
    ∀ {l : LDoc}, countOcc pat l = 0 → splitFirst pat l = none := by
  intro l
  induction l with
  | nil =>
    intro hl
    unfold splitFirst
    rw [if_neg (by simpa using not_prefix_drop_of_countOcc hl 0)]
  | cons c rest ih =>
    intro hl
    rw [countOcc_cons] at hl
    have h2 : countOcc pat rest = 0 := by omega
    unfold splitFirst
    have hnp : ¬ pat <+: c :: rest := by
      intro hp
      rw [if_pos hp] at hl
      omega
    rw [if_neg hnp, ih h2]
    rfl

/-- Occurrences of `pat` cannot start strictly inside a `pat`-free block `x`
that is immediately followed by an aligned `pat`, provided `pat` cannot
overlap a shifted copy of itself. -/
theorem not_prefix_straddle {pat x z : LDoc} (hx : countOcc pat x = 0)
    (hso : ∀ L, L < pat.length → 0 < L → ¬ pat <+: pat.take L ++ pat) :
    ∀ i, i < x.length → ¬ pat <+: (x.drop i ++ (pat ++ z)) := by
  intro i hi hp
  have hd : x.drop i ≠ [] := by
    have := List.length_drop i x
    intro h0
    rw [h0] at this
    simp at this
    omega
  rcases prefix_comparable hp with hu | hu
  · by_cases hlen : (x.drop i).length = pat.length
    · have heq : x.drop i = pat := hu.eq_of_length hlen
      have hpp : pat <+: x.drop i := by rw [heq]
      exact countOcc_ne_zero_of_prefix_drop hpp hx
    · have hL : (x.drop i).length < pat.length :=
        lt_of_le_of_ne hu.length_le hlen
      have hxi : x.drop i = pat.take (x.drop i).length := List.prefix_iff_eq_take.mp hu
      have hp2 : pat <+: (pat.take (x.drop i).length ++ pat) ++ z := by
        rw [List.append_assoc, ← hxi]
        exact hp
      have hp3 : pat <+: pat.take (x.drop i).length ++ pat :=
        prefix_append_long hp2 (by simp [List.length_take])
      exact hso (x.drop i).length hL (List.length_pos.mpr hd) hp3
  · exact countOcc_ne_zero_of_prefix_drop hu hx

/-!  Discharging `Incomp` hypotheses for the common piece shapes. -/

theorem incomp_of_head_not_mem {pat x : LDoc} {c0 : Char} (hpat : pat.head? = some c0)
    (hx : c0 ∉ x) : ∀ i, i < x.length → Incomp pat (x.drop i) := by
  intro i hi
  have hd : x.drop i ≠ [] := by
    have := List.length_drop i x
    intro h0
    rw [h0] at this
    simp at this
    omega
  obtain ⟨d, ds, hds⟩ := List.exists_cons_of_ne_nil hd
  have hdmem : d ∈ x := (List.drop_subset i x) (hds ▸ List.mem_cons_self d ds)
  match pat, hpat with
  | cp :: pt, hpat =>
    have hcp : cp = c0 := by simpa using hpat
    subst hcp
    constructor
    · intro hpre
      rw [hds] at hpre
      have heq := (List.cons_prefix_cons.mp hpre).1
      rw [← heq] at hdmem
      exact hx hdmem
    · intro hpre
      rw [hds] at hpre
      have heq := (List.cons_prefix_cons.mp hpre).1
      rw [heq] at hdmem
      exact hx hdmem

theorem backslash_not_mem_of_space {x : LDoc} (hws : ∀ c ∈ x, isSpaceChar c = true) :
    '\\' ∉ x := by
  intro hmem
  have := hws _ hmem
  simp [isSpaceChar] at this

/-!  Facts about `stripChars`. -/

theorem stripChars_length_le (l : LDoc) : (stripChars l).length ≤ l.length := by
  unfold stripChars
  have h1 := (List.dropWhile_suffix (l := l) isSpaceChar).length_le
  have h2 := (List.dropWhile_suffix (l := (l.dropWhile isSpaceChar).reverse) isSpaceChar).length_le
  simp only [List.length_reverse] at h2 ⊢
  omega

theorem stripChars_subset (l : LDoc) : stripChars l ⊆ l := by
  intro c hc
  unfold stripChars at hc
  rw [List.mem_reverse] at hc
  have hc2 := (List.dropWhile_suffix (l := (l.dropWhile isSpaceChar).reverse) isSpaceChar).subset hc
  rw [List.mem_reverse] at hc2
  exact (List.dropWhile_suffix (l := l) isSpaceChar).subset hc2

theorem not_mem_stripChars {l : LDoc} {c : Char} (h : c ∉ l) : c ∉ stripChars l :=
  fun hc => h (stripChars_subset l hc)

/-!  Generic facts about the scanner `subnScan`. -/

/-- A matcher that consumes at least one character at every match. -/
def Consumes (m : LDoc → Option (LDoc × LDoc × Nat)) : Prop :=
  ∀ l r p k, m l = some (r, p, k) → p.length < l.length

theorem subnScan_nil (m : LDoc → Option (LDoc × LDoc × Nat)) :
    ∀ fuel, subnScan m fuel [] = ([], 0) := by
  intro fuel
  cases fuel <;> rfl

theorem subnScan_cons_some {m : LDoc → Option (LDoc × LDoc × Nat)} {c : Char}
    {t r p : LDoc} {k : Nat} (h : m (c :: t) = some (r, p, k)) (fuel : Nat) :
    subnScan m (fuel + 1) (c :: t) =
      (r ++ (subnScan m fuel p).1, (subnScan m fuel p).2 + k) := by
  simp only [subnScan, h]

theorem subnScan_cons_none {m : LDoc → Option (LDoc × LDoc × Nat)} {c : Char}
    {t : LDoc} (h : m (c :: t) = none) (fuel : Nat) :
    subnScan m (fuel + 1) (c :: t) =
      (c :: (subnScan m fuel t).1, (subnScan m fuel t).2) := by
  simp only [subnScan, h]

theorem subnScan_fuel_eq {m : LDoc → Option (LDoc × LDoc × Nat)} (hm : Consumes m) :
    ∀ f₁ f₂ l, l.length ≤ f₁ → l.length ≤ f₂ → subnScan m f₁ l = subnScan m f₂ l := by
  intro f₁
  induction f₁ with
  | zero =>
    intro f₂ l h1 _
    have : l = [] := by
      cases l with
      | nil => rfl
      | cons c t => simp at h1
    rw [this, subnScan_nil, subnScan_nil]
  | succ f ih =>
    intro f₂ l h1 h2
    cases l with
    | nil => rw [subnScan_nil, subnScan_nil]
    | cons c t =>
      have hlen : t.length + 1 ≤ f₂ := by simpa using h2
      obtain ⟨f₂', rfl⟩ : ∃ f₂', f₂ = f₂' + 1 := ⟨f₂ - 1, by omega⟩
      cases hmc : m (c :: t) with
      | some v =>
        obtain ⟨r, p, k⟩ := v
        rw [subnScan_cons_some hmc, subnScan_cons_some hmc]
        have hp : p.length < (c :: t).length := hm _ _ _ _ hmc
        have hp' : p.length ≤ t.length := by simp at hp; omega
        have h1' : t.length ≤ f := by simp at h1; omega
        rw [ih f₂' p (by omega) (by omega)]
      | none =>
        rw [subnScan_cons_none hmc, subnScan_cons_none hmc]
        have h1' : t.length ≤ f := by simp at h1; omega
        rw [ih f₂' t (by omega) (by omega)]

theorem subnScan_skip {m : LDoc → Option (LDoc × LDoc × Nat)} (hm : Consumes m) :
    ∀ (x rest : LDoc), (∀ i, i < x.length → m (x.drop i ++ rest) = none) →
    ∀ fuel, x.length + rest.length ≤ fuel →
      subnScan m fuel (x ++ rest) =
        (x ++ (subnScan m rest.length rest).1, (subnScan m rest.length rest).2) := by
  intro x
  induction x with
  | nil =>
    intro rest _ fuel hfuel
    rw [List.nil_append, List.nil_append]
    have := subnScan_fuel_eq hm fuel rest.length rest (by simpa using hfuel) (le_refl _)
    rw [this]
  | cons c x' ih =>
    intro rest hx fuel hfuel
    obtain ⟨f, rfl⟩ : ∃ f, fuel = f + 1 := ⟨fuel - 1, by simp at hfuel; omega⟩
    show subnScan m (f + 1) (c :: (x' ++ rest)) = _
    have h0 : m (c :: (x' ++ rest)) = none := by simpa using hx 0 (by simp)
    rw [subnScan_cons_none h0,
      ih rest (fun i hi => by simpa using hx (i + 1) (by simpa using hi)) f
        (by simp at hfuel; omega)]
    rfl

theorem subnScan_step {m : LDoc → Option (LDoc × LDoc × Nat)} (hm : Consumes m)
    {l r p : LDoc} {k : Nat} (h : m l = some (r, p, k)) :
    ∀ fuel, l.length ≤ fuel →
      subnScan m fuel l = (r ++ (subnScan m p.length p).1, (subnScan m p.length p).2 + k) := by
  intro fuel hfuel
  have hp : p.length < l.length := hm _ _ _ _ h
  cases l with
  | nil => simp at hp
  | cons c t =>
    obtain ⟨f, rfl⟩ : ∃ f, fuel = f + 1 := ⟨fuel - 1, by simp at hfuel; omega⟩
    rw [subnScan_cons_some h]
    have : subnScan m f p = subnScan m p.length p := by
      apply subnScan_fuel_eq hm
      · simp at hfuel hp; omega
      · exact le_refl _
    rw [this]

theorem subnScan_id {m : LDoc → Option (LDoc × LDoc × Nat)} :
    ∀ (l : LDoc), (∀ i, i < l.length → m (l.drop i) = none) →
    ∀ fuel, subnScan m fuel l = (l, 0) := by
  intro l
  induction l with
  | nil => intro _ fuel; rw [subnScan_nil]
  | cons c t ih =>
    intro h fuel
    cases fuel with
    | zero => rfl
    | succ f =>
      have h0 : m (c :: t) = none := by simpa using h 0 (by simp)
      rw [subnScan_cons_none h0, ih (fun i hi => by simpa using h (i + 1) (by simpa using hi)) f]

theorem dropWhile_append_stop {p : Char → Bool} :
    ∀ (x : LDoc) (c : Char) (y : LDoc), (∀ a ∈ x, p a = true) → p c = false →
      (x ++ c :: y).dropWhile p = c :: y ∧ (x ++ c :: y).takeWhile p = x := by
  intro x
  induction x with
  | nil =>
    intro c y _ hc
    constructor
    · rw [List.nil_append, List.dropWhile_cons, if_neg (by simp [hc])]
    · rw [List.nil_append, List.takeWhile_cons, if_neg (by simp [hc])]
  | cons a x' ih =>
    intro c y hx hc
    have ha : p a = true := hx a (by simp)
    obtain ⟨ih1, ih2⟩ := ih c y (fun b hb => hx b (by simp [hb])) hc
    constructor
    · show (a :: (x' ++ c :: y)).dropWhile p = c :: y
      rw [List.dropWhile_cons, if_pos (by simp [ha])]
      exact ih1
    · show (a :: (x' ++ c :: y)).takeWhile p = a :: x'
      rw [List.takeWhile_cons, if_pos (by simp [ha]), ih2]

theorem dropWhile_space_append {ws rest : LDoc} (hws : ∀ a ∈ ws, isSpaceChar a = true)
    (hrest : rest.head? = some '\\') : (ws ++ rest).dropWhile isSpaceChar = rest := by
  cases rest with
  | nil => simp at hrest
  | cons c t =>
    have hc : c = '\\' := by simpa using hrest
    subst hc
    exact (dropWhile_append_stop ws '\\' t hws (by decide)).1

theorem subnScan_fst_of_count_eq_zero {m : LDoc → Option (LDoc × LDoc × Nat)}
    (hm0 : ∀ l r p, m l = some (r, p, 0) → r ++ p = l) :
    ∀ fuel l, (subnScan m fuel l).2 = 0 → (subnScan m fuel l).1 = l := by
  intro fuel
  induction fuel with
  | zero => intro l _; rfl
  | succ f ih =>
    intro l hcount
    cases l with
    | nil => rw [subnScan_nil]
    | cons c t =>
      cases hmc : m (c :: t) with
      | some v =>
        obtain ⟨r, p, k⟩ := v
        rw [subnScan_cons_some hmc] at hcount ⊢
        simp at hcount
        obtain ⟨h1, h2⟩ := hcount
        subst h2
        rw [ih p h1]
        exact hm0 _ _ _ hmc
      | none =>
        rw [subnScan_cons_none hmc] at hcount ⊢
        simp at hcount
        rw [ih t hcount]

/-!  The quote-block matcher. -/

theorem quoteMatchAt_eq_none {l : LDoc} (h : ¬ beginQuote <+: l) : quoteMatchAt l = none := by
  unfold quoteMatchAt
  rw [if_neg h]

theorem quoteMatchAt_append (mid z : LDoc) (hmid : countOcc endQuote mid = 0) :
    quoteMatchAt (beginQuote ++ (mid ++ (endQuote ++ z))) = some (stripChars mid, z, 1) := by
  unfold quoteMatchAt
  rw [if_pos (List.prefix_append _ _), List.drop_left,
    splitFirst_append (by decide) mid z (not_prefix_straddle hmid (by decide))]

theorem quoteMatchAt_inv {l r p : LDoc} {k : Nat} (h : quoteMatchAt l = some (r, p, k)) :
    ∃ mid, l = beginQuote ++ (mid ++ (endQuote ++ p)) ∧ r = stripChars mid ∧ k = 1 := by
  unfold quoteMatchAt at h
  split at h
  · rename_i hpre
    split at h
    · rename_i mid post hsp
      obtain ⟨h1, h2, h3⟩ : stripChars mid = r ∧ post = p ∧ 1 = k := by
        have := Option.some.inj h
        refine ⟨congrArg (fun q => q.1) this, ?_, ?_⟩
        · exact congrArg (fun q => q.2.1) this
        · exact congrArg (fun q => q.2.2) this
      subst h2
      refine ⟨mid, ?_, h1.symm, h3.symm⟩
      obtain ⟨t, ht⟩ := hpre
      have hdrop : l.drop beginQuote.length = t := by rw [← ht, List.drop_left]
      rw [hdrop] at hsp
      rw [← ht, splitFirst_eq hsp]
    · exact absurd h (by simp)
  · exact absurd h (by simp)

theorem quoteMatchAt_consumes : Consumes quoteMatchAt := by
  intro l r p k h
  obtain ⟨mid, hl, _, _⟩ := quoteMatchAt_inv h
  rw [hl]
  have h1 : beginQuote.length = 13 := rfl
  have h2 : endQuote.length = 11 := rfl
  simp [List.length_append, h1, h2]
  omega

/-!  The bibliography-item matcher. -/

theorem bibitemMatchAt_eq_none {l : LDoc} (h : ¬ itemMarker <+: l) : bibitemMatchAt l = none := by
  unfold bibitemMatchAt
  rw [if_neg h]

theorem bibitemMatchAt_append (ws mid z : LDoc) (hws : ∀ a ∈ ws, isSpaceChar a = true)
    (hmid : countOcc endQuote mid = 0) :
    bibitemMatchAt (itemMarker ++ (ws ++ (beginQuote ++ (mid ++ (endQuote ++ z))))) =
      some (itemMarker ++ ' ' :: stripChars mid, z, 1) := by
  unfold bibitemMatchAt
  rw [if_pos (List.prefix_append _ _), List.drop_left,
    dropWhile_space_append hws (by rw [List.head?_append_of_ne_nil] <;> decide),
    if_pos (List.prefix_append _ _), List.drop_left,
    splitFirst_append (by decide) mid z (not_prefix_straddle hmid (by decide))]

theorem bibitemMatchAt_inv {l r p : LDoc} {k : Nat} (h : bibitemMatchAt l = some (r, p, k)) :
    ∃ ws mid, (∀ a ∈ ws, isSpaceChar a = true) ∧
      l = itemMarker ++ (ws ++ (beginQuote ++ (mid ++ (endQuote ++ p)))) ∧
      r = itemMarker ++ ' ' :: stripChars mid ∧ k = 1 := by
  unfold bibitemMatchAt at h
  split at h
  · rename_i hpre
    split at h
    · rename_i hq
      split at h
      · rename_i mid post hsp
        obtain ⟨h1, h2, h3⟩ : itemMarker ++ ' ' :: stripChars mid = r ∧ post = p ∧ 1 = k := by
          have := Option.some.inj h
          refine ⟨congrArg (fun q => q.1) this, ?_, ?_⟩
          · exact congrArg (fun q => q.2.1) this
          · exact congrArg (fun q => q.2.2) this
        subst h2
        refine ⟨(l.drop itemMarker.length).takeWhile isSpaceChar, mid,
          fun a ha => List.mem_takeWhile_imp ha, ?_, h1.symm, h3.symm⟩
        obtain ⟨t, ht⟩ := hpre
        have hdrop : l.drop itemMarker.length = t := by rw [← ht, List.drop_left]
        obtain ⟨u, hu⟩ := hq
        have hdrop2 : ((l.drop itemMarker.length).dropWhile isSpaceChar).drop beginQuote.length
            = u := by rw [← hu, List.drop_left]
        rw [hdrop2] at hsp
        have hsp2 := splitFirst_eq hsp
        calc l = itemMarker ++ t := ht.symm
        _ = itemMarker ++ (t.takeWhile isSpaceChar ++ t.dropWhile isSpaceChar) := by
            rw [List.takeWhile_append_dropWhile]
        _ = _ := by rw [← hdrop, ← hu, hsp2]
      · exact absurd h (by simp)
    · exact absurd h (by simp)
  · exact absurd h (by simp)

theorem bibitemMatchAt_consumes : Consumes bibitemMatchAt := by
  intro l r p k h
  obtain ⟨ws, mid, _, hl, _, _⟩ := bibitemMatchAt_inv h
  rw [hl]
  have h1 : itemMarker.length = 5 := rfl
  have h2 : beginQuote.length = 13 := rfl
  have h3 : endQuote.length = 11 := rfl
  simp [List.length_append, h1, h2, h3]
  omega

theorem bibitemMatchAt_quote_occurs {l r p : LDoc} {k : Nat}
    (h : bibitemMatchAt l = some (r, p, k)) : ∃ j, beginQuote <+: l.drop j := by
  obtain ⟨ws, mid, _, hl, _, _⟩ := bibitemMatchAt_inv h
  refine ⟨itemMarker.length + ws.length, ?_⟩
  rw [hl, ← List.append_assoc, List.drop_left' (by simp)]
  exact List.prefix_append _ _

/-!  The minipage matcher. -/

theorem minipageMatchAt_eq_none {l : LDoc} (h : ¬ beginMinipage <+: l) :
    minipageMatchAt l = none := by
  unfold minipageMatchAt
  rw [if_neg h]

theorem bne_all_of_not_mem {x : LDoc} {c : Char} (hc : c ∉ x) :
    ∀ a ∈ x, (a != c) = true := by
  intro a ha
  simp only [bne_iff_ne, ne_eq]
  intro he
  exact hc (he ▸ ha)

theorem expectChar_cons (c : Char) (t : LDoc) : expectChar c (c :: t) = some t := by
  simp [expectChar]

theorem expectChar_inv {c : Char} {l t : LDoc} (h : expectChar c l = some t) : l = c :: t := by
  cases l with
  | nil => simp [expectChar] at h
  | cons x rest =>
    by_cases hx : x = c
    · subst hx
      rw [show expectChar x (x :: rest) = some rest from by simp [expectChar]] at h
      rw [Option.some.inj h]
    · rw [show expectChar c (x :: rest) = none from by simp [expectChar, hx]] at h
      exact absurd h (by simp)

theorem minipageMatchAt_append (a1 a2 w z : LDoc) (ha1 : ']' ∉ a1) (ha2 : '\x7d' ∉ a2)
    (hw : countOcc endMinipage w = 0) :
    minipageMatchAt
        (beginMinipage ++ (a1 ++ (']' :: '\x7b' ::
          (a2 ++ ('\x7d' :: (w ++ (endMinipage ++ z))))))) =
      some (stripChars w, z, 1) := by
  unfold minipageMatchAt
  rw [if_pos (List.prefix_append _ _), List.drop_left]
  rw [(dropWhile_append_stop a1 ']' _ (bne_all_of_not_mem ha1) (by decide)).1]
  simp only [expectChar_cons, Option.some_bind]
  rw [(dropWhile_append_stop a2 '\x7d' _ (bne_all_of_not_mem ha2) (by decide)).1]
  simp only [expectChar_cons, Option.some_bind]
  rw [splitFirst_append (by decide) w z (not_prefix_straddle hw (by decide))]
  simp only [Option.some_bind]

theorem minipageMatchAt_inv {l r p : LDoc} {k : Nat} (h : minipageMatchAt l = some (r, p, k)) :
    ∃ a1 a2 w,
      l = beginMinipage ++ (a1 ++ (']' :: '\x7b' ::
        (a2 ++ ('\x7d' :: (w ++ (endMinipage ++ p)))))) ∧
      r = stripChars w ∧ k = 1 := by
  unfold minipageMatchAt at h
  split at h
  · rename_i hpre
    cases he1 : expectChar ']' ((l.drop beginMinipage.length).dropWhile (fun c => c != ']')) with
    | none => rw [he1] at h; simp at h
    | some r2 =>
      rw [he1, Option.some_bind] at h
      cases he2 : expectChar '\x7b' r2 with
      | none => rw [he2] at h; simp at h
      | some r3 =>
        rw [he2, Option.some_bind] at h
        cases he3 : expectChar '\x7d' (r3.dropWhile (fun c => c != '\x7d')) with
        | none => rw [he3] at h; simp at h
        | some r4 =>
          rw [he3, Option.some_bind] at h
          cases hsp : splitFirst endMinipage r4 with
          | none => rw [hsp] at h; simp at h
          | some q =>
            obtain ⟨mid, post⟩ := q
            rw [hsp, Option.some_bind] at h
            obtain ⟨h1, h2, h3⟩ : stripChars mid = r ∧ post = p ∧ 1 = k := by
              have := Option.some.inj h
              refine ⟨congrArg (fun q => q.1) this, ?_, ?_⟩
              · exact congrArg (fun q => q.2.1) this
              · exact congrArg (fun q => q.2.2) this
            subst h2
            refine ⟨(l.drop beginMinipage.length).takeWhile (fun c => c != ']'),
              r3.takeWhile (fun c => c != '\x7d'), mid, ?_, h1.symm, h3.symm⟩
            obtain ⟨t, ht⟩ := hpre
            have hdrop : l.drop beginMinipage.length = t := by rw [← ht, List.drop_left]
            have hsp2 := splitFirst_eq hsp
            have he1' := expectChar_inv he1
            have he2' := expectChar_inv he2
            have he3' := expectChar_inv he3
            calc l = beginMinipage ++ t := ht.symm
            _ = beginMinipage ++
                (t.takeWhile (fun c => c != ']') ++ t.dropWhile (fun c => c != ']')) := by
                rw [List.takeWhile_append_dropWhile]
            _ = _ := by
                rw [← hdrop, he1', he2']
                have hr3 : r3.takeWhile (fun c => c != '\x7d') ++
                    r3.dropWhile (fun c => c != '\x7d') = r3 :=
                  List.takeWhile_append_dropWhile (fun c => c != '\x7d') r3
                conv_lhs => rw [← hr3]
                rw [he3', hsp2]
  · exact absurd h (by simp)

theorem minipageMatchAt_consumes : Consumes minipageMatchAt := by
  intro l r p k h
  obtain ⟨a1, a2, w, hl, _, _⟩ := minipageMatchAt_inv h
  rw [hl]
  have h1 : beginMinipage.length = 17 := rfl
  have h2 : endMinipage.length = 14 := rfl
  simp [List.length_append, h1, h2]
  omega

/-!  The longtable matcher. -/

theorem longtableMatchAt_eq_none {l : LDoc} (h : ¬ beginLongtable <+: l) :
    longtableMatchAt l = none := by
  unfold longtableMatchAt
  rw [if_neg h]

theorem longtableMatchAt_append (cols body z : LDoc) (hcols : '\x7d' ∉ cols)
    (hbody : countOcc endLongtable body = 0) :
    longtableMatchAt (beginLongtable ++ (cols ++ ('\x7d' :: (body ++ (endLongtable ++ z))))) =
      some (beginLongtable ++ cols ++ '\x7d' :: (strip_minipages body ++ endLongtable), z,
            if strip_minipages body = body then 0 else 1) := by
  unfold longtableMatchAt
  rw [if_pos (List.prefix_append _ _), List.drop_left]
  rw [(dropWhile_append_stop cols '\x7d' _ (bne_all_of_not_mem hcols) (by decide)).1]
  simp only [expectChar_cons, Option.some_bind]
  rw [splitFirst_append (by decide) body z (not_prefix_straddle hbody (by decide))]
  simp only [Option.some_bind]
  rw [(dropWhile_append_stop cols '\x7d' _ (bne_all_of_not_mem hcols) (by decide)).2]

theorem longtableMatchAt_inv {l r p : LDoc} {k : Nat} (h : longtableMatchAt l = some (r, p, k)) :
    ∃ cols body,
      l = beginLongtable ++ (cols ++ ('\x7d' :: (body ++ (endLongtable ++ p)))) ∧
      r = beginLongtable ++ cols ++ '\x7d' :: (strip_minipages body ++ endLongtable) ∧
      k = (if strip_minipages body = body then 0 else 1) := by
  unfold longtableMatchAt at h
  split at h
  · rename_i hpre
    cases he1 :
        expectChar '\x7d' ((l.drop beginLongtable.length).dropWhile (fun c => c != '\x7d')) with
    | none => rw [he1] at h; simp at h
    | some r2 =>
      rw [he1, Option.some_bind] at h
      cases hsp : splitFirst endLongtable r2 with
      | none => rw [hsp] at h; simp at h
      | some q =>
        obtain ⟨body, post⟩ := q
        rw [hsp, Option.some_bind] at h
        obtain ⟨h1, h2, h3⟩ :
            beginLongtable ++ (l.drop beginLongtable.length).takeWhile (fun c => c != '\x7d') ++
              '\x7d' :: (strip_minipages body ++ endLongtable) = r ∧ post = p ∧
              (if strip_minipages body = body then 0 else 1) = k := by
          have := Option.some.inj h
          refine ⟨congrArg (fun q => q.1) this, ?_, ?_⟩
          · exact congrArg (fun q => q.2.1) this
          · exact congrArg (fun q => q.2.2) this
        subst h2
        refine ⟨(l.drop beginLongtable.length).takeWhile (fun c => c != '\x7d'), body, ?_,
          h1.symm, h3.symm⟩
        obtain ⟨t, ht⟩ := hpre
        have hdrop : l.drop beginLongtable.length = t := by rw [← ht, List.drop_left]
        have hsp2 := splitFirst_eq hsp
        have he1' := expectChar_inv he1
        calc l = beginLongtable ++ t := ht.symm
        _ = beginLongtable ++
            (t.takeWhile (fun c => c != '\x7d') ++ t.dropWhile (fun c => c != '\x7d')) := by
            rw [List.takeWhile_append_dropWhile]
        _ = _ := by rw [← hdrop, he1', hsp2]
  · exact absurd h (by simp)

theorem longtableMatchAt_consumes : Consumes longtableMatchAt := by
  intro l r p k h
  obtain ⟨cols, body, hl, _, _⟩ := longtableMatchAt_inv h
  rw [hl]
  have h1 : beginLongtable.length = 18 := rfl
  have h2 : endLongtable.length = 15 := rfl
  simp [List.length_append, h1, h2]
  omega

theorem longtableMatchAt_zero_reconstruct {l r p : LDoc}
    (h : longtableMatchAt l = some (r, p, 0)) : r ++ p = l := by
  obtain ⟨cols, body, hl, hr, hk⟩ := longtableMatchAt_inv h
  by_cases hb : strip_minipages body = body
  · rw [hl, hr, hb]
    simp [List.append_assoc]
  · rw [if_neg hb] at hk
    omega

/-!  Identity behaviour of the passes on marker-free documents. -/

theorem countOcc_eq_zero_of_forall {pat l : LDoc} (h : ∀ i, ¬ pat <+: l.drop i) :
    countOcc pat l = 0 := by
  induction l with
  | nil =>
    rw [countOcc_nil, if_neg (by simpa using h 0)]
  | cons c rest ih =>
    rw [countOcc_cons, if_neg (by simpa using h 0),
      ih (fun i => by simpa using h (i + 1))]

theorem countOcc_zero_of_not_mem {pat l : LDoc} {c : Char} (hc : c ∈ pat) (hl : c ∉ l) :
    countOcc pat l = 0 := by
  apply countOcc_eq_zero_of_forall
  intro i hp
  exact hl ((List.drop_subset i l) (hp.subset hc))

theorem remove_quote_blocks_id {l : LDoc} (h : countOcc beginQuote l = 0) :
    remove_quote_blocks l = (l, 0) :=
  subnScan_id l
    (fun i _ => quoteMatchAt_eq_none (not_prefix_drop_of_countOcc h i)) l.length

theorem simplify_longtables_id {l : LDoc} (h : countOcc beginLongtable l = 0) :
    simplify_longtables l = (l, 0) :=
  subnScan_id l
    (fun i _ => longtableMatchAt_eq_none (not_prefix_drop_of_countOcc h i)) l.length

theorem strip_minipages_id {l : LDoc} (h : countOcc beginMinipage l = 0) :
    strip_minipages l = l := by
  unfold strip_minipages
  rw [subnScan_id l
    (fun i _ => minipageMatchAt_eq_none (not_prefix_drop_of_countOcc h i)) l.length]

theorem bibitemMatchAt_eq_none_of_no_quote {t : LDoc} (h : countOcc beginQuote t = 0) :
    bibitemMatchAt t = none := by
  cases hb : bibitemMatchAt t with
  | none => rfl
  | some v =>
    obtain ⟨r, p, k⟩ := v
    obtain ⟨j, hj⟩ := bibitemMatchAt_quote_occurs hb
    exact absurd (not_prefix_drop_of_countOcc h j hj) (by simp [hj])

theorem normalize_bibliography_items_id {l : LDoc} (h : countOcc beginQuote l = 0) :
    normalize_bibliography_items l = (l, 0) :=
  subnScan_id l
    (fun i _ => bibitemMatchAt_eq_none_of_no_quote (by
      apply countOcc_eq_zero_of_forall
      intro j hp
      rw [List.drop_drop] at hp
      exact not_prefix_drop_of_countOcc h _ hp)) l.length

/-!  The quote-removal pass on a document made of `k` properly terminated,
non-nested quotation wrappers separated by marker-free filler. -/

/-- `glueQuote s0 [(m1, s1), …, (mk, sk)]` is
`s0 ++ B ++ m1 ++ E ++ s1 ++ … ++ B ++ mk ++ E ++ sk` for the quote markers
`B`/`E`: the generic document containing exactly `k` wrappers (with bodies
`mᵢ`) when all the pieces are free of marker occurrences. -/
def glueQuote (s0 : LDoc) : List (LDoc × LDoc) → LDoc
  | [] => s0
  | (m, s) :: ps => s0 ++ (beginQuote ++ (m ++ (endQuote ++ glueQuote s ps)))

/-- What quote removal produces on `glueQuote s0 ps`: each wrapper replaced by
its stripped body. -/
def spliceQuote (s0 : LDoc) : List (LDoc × LDoc) → LDoc
  | [] => s0
  | (m, s) :: ps => s0 ++ (stripChars m ++ spliceQuote s ps)

/-- Pieces of a quote decomposition contain no marker occurrence. -/
def QuoteFree (x : LDoc) : Prop :=
  countOcc beginQuote x = 0 ∧ countOcc endQuote x = 0

instance (x : LDoc) : Decidable (QuoteFree x) := by unfold QuoteFree; infer_instance

theorem remove_quote_blocks_glue :
    ∀ (ps : List (LDoc × LDoc)) (s0 : LDoc), QuoteFree s0 →
      (∀ q ∈ ps, QuoteFree q.1 ∧ QuoteFree q.2) →
      remove_quote_blocks (glueQuote s0 ps) = (spliceQuote s0 ps, ps.length) := by
  intro ps
  induction ps with
  | nil =>
    intro s0 h0 _
    exact remove_quote_blocks_id h0.1
  | cons q ps' ih =>
    obtain ⟨m, s⟩ := q
    intro s0 h0 hps
    have hm : QuoteFree m := (hps (m, s) (by simp)).1
    have hs : QuoteFree s := (hps (m, s) (by simp)).2
    show remove_quote_blocks (s0 ++ (beginQuote ++ (m ++ (endQuote ++ glueQuote s ps')))) = _
    unfold remove_quote_blocks
    rw [subnScan_skip quoteMatchAt_consumes s0 _
      (fun i hi => quoteMatchAt_eq_none (not_prefix_straddle h0.1 (by decide) i hi))
      _ (by simp [List.length_append])]
    rw [subnScan_step quoteMatchAt_consumes
      (quoteMatchAt_append m (glueQuote s ps') hm.2) _ (le_refl _)]
    have hg : subnScan quoteMatchAt (glueQuote s ps').length (glueQuote s ps') =
        (spliceQuote s ps', ps'.length) :=
      ih s hs (fun q hq => hps q (by simp [hq]))
    rw [hg]
    show (s0 ++ (stripChars m ++ spliceQuote s ps'), ps'.length + 1) = _
    rfl

/-!  The unicode pass as a character-wise substitution homomorphism. -/

/-- Lookup of a character in a replacement table, first match wins. -/
def lookupRep (entries : List (Char × LDoc)) (c : Char) : Option LDoc :=
  match entries with
  | [] => none
  | e :: rest => if e.1 = c then some e.2 else lookupRep rest c

/-- The character-wise substitution homomorphism of a replacement table:
each table-key character is mapped to its replacement string, every other
character is kept. -/
def unicodeSubst (entries : List (Char × LDoc)) : LDoc → LDoc
  | [] => []
  | c :: t => (lookupRep entries c).getD [c] ++ unicodeSubst entries t

/-- The number of table-key characters occurring in a document. -/
def keyCount (entries : List (Char × LDoc)) (l : LDoc) : Nat :=
  l.countP (fun c => (lookupRep entries c).isSome)

theorem replaceChar_eq_self {k : Char} {r l : LDoc} (h : k ∉ l) : replaceChar k r l = l := by
  induction l with
  | nil => rfl
  | cons c t ih =>
    show (if c = k then r else [c]) ++ replaceChar k r t = c :: t
    rw [if_neg (fun hc => h (by simp [hc])), ih (fun hc => h (by simp [hc]))]
    rfl

theorem lookupRep_cons (k : Char) (v : LDoc) (rest : List (Char × LDoc)) (c : Char) :
    lookupRep ((k, v) :: rest) c = if k = c then some v else lookupRep rest c :=
  rfl

theorem applyEntry_eq (st : LDoc × Nat) (e : Char × LDoc) :
    applyEntry st e = (replaceChar e.1 e.2 st.1, st.2 + st.1.count e.1) := by
  unfold applyEntry
  split
  · rfl
  · rename_i hmem
    rw [replaceChar_eq_self hmem, List.count_eq_zero.mpr hmem]
    simp

theorem unicodeSubst_nil_entries (l : LDoc) : unicodeSubst [] l = l := by
  induction l with
  | nil => rfl
  | cons c t ih =>
    show (lookupRep [] c).getD [c] ++ unicodeSubst [] t = c :: t
    rw [ih]
    rfl

theorem unicodeSubst_append (entries : List (Char × LDoc)) (l₁ l₂ : LDoc) :
    unicodeSubst entries (l₁ ++ l₂) = unicodeSubst entries l₁ ++ unicodeSubst entries l₂ := by
  induction l₁ with
  | nil => rfl
  | cons c t ih =>
    show (lookupRep entries c).getD [c] ++ unicodeSubst entries (t ++ l₂) = _
    rw [ih]
    simp [unicodeSubst]

theorem lookupRep_mem {entries : List (Char × LDoc)} {c : Char} {r : LDoc}
    (h : lookupRep entries c = some r) : (c, r) ∈ entries := by
  induction entries with
  | nil => simp [lookupRep] at h
  | cons e rest ih =>
    obtain ⟨k, v⟩ := e
    unfold lookupRep at h
    split at h
    · rename_i hk
      simp at hk
      have hv := Option.some.inj h
      simp [← hk, ← hv]
    · simp [ih h]

theorem lookupRep_eq_none {entries : List (Char × LDoc)} {c : Char}
    (h : ∀ e ∈ entries, e.1 ≠ c) : lookupRep entries c = none := by
  induction entries with
  | nil => rfl
  | cons e rest ih =>
    unfold lookupRep
    rw [if_neg (h e (by simp)), ih (fun e' he' => h e' (by simp [he']))]

theorem unicodeSubst_eq_self {entries : List (Char × LDoc)} {x : LDoc}
    (h : ∀ c ∈ x, lookupRep entries c = none) : unicodeSubst entries x = x := by
  induction x with
  | nil => rfl
  | cons c t ih =>
    show (lookupRep entries c).getD [c] ++ unicodeSubst entries t = c :: t
    rw [h c (by simp), ih (fun c' hc' => h c' (by simp [hc']))]
    rfl

theorem unicodeSubst_cons_replace (k : Char) (r : LDoc) (rest : List (Char × LDoc))
    (hkr : ∀ e ∈ rest, e.1 ∉ r) :
    ∀ l, unicodeSubst rest (replaceChar k r l) = unicodeSubst ((k, r) :: rest) l := by
  intro l
  induction l with
  | nil => rfl
  | cons c t ih =>
    show unicodeSubst rest ((if c = k then r else [c]) ++ replaceChar k r t) = _
    rw [unicodeSubst_append, ih]
    by_cases hc : c = k
    · subst hc
      rw [if_pos rfl]
      have hrr : unicodeSubst rest r = r := by
        apply unicodeSubst_eq_self
        intro ch hch
        cases hl : lookupRep rest ch with
        | none => rfl
        | some v => exact absurd hch (hkr (ch, v) (lookupRep_mem hl))
      rw [hrr]
      show r ++ unicodeSubst ((c, r) :: rest) t = (lookupRep ((c, r) :: rest) c).getD [c] ++ _
      rw [lookupRep_cons, if_pos rfl]
      rfl
    · rw [if_neg hc]
      show unicodeSubst rest [c] ++ _ = (lookupRep ((k, r) :: rest) c).getD [c] ++ _
      rw [lookupRep_cons, if_neg (fun hk => hc (hk.symm))]
      show (lookupRep rest c).getD [c] ++ unicodeSubst rest [] ++ _ = _
      simp [unicodeSubst]

theorem countP_replaceChar {p : Char → Bool} {k : Char} {r : LDoc} (hpk : p k = false)
    (hpr : ∀ c ∈ r, p c = false) :
    ∀ l, (replaceChar k r l).countP p = l.countP p := by
  intro l
  induction l with
  | nil => rfl
  | cons c t ih =>
    show ((if c = k then r else [c]) ++ replaceChar k r t).countP p = _
    rw [List.countP_append, ih, List.countP_cons]
    by_cases hc : c = k
    · subst hc
      rw [if_pos rfl, hpk, List.countP_eq_zero.mpr (fun a ha => by simp [hpr a ha])]
      simp
    · rw [if_neg hc, List.countP_cons]
      simp [Nat.add_comm]

theorem keyCount_cons {k : Char} {r : LDoc} {rest : List (Char × LDoc)}
    (hk : lookupRep rest k = none) :
    ∀ l, keyCount ((k, r) :: rest) l = l.count k + keyCount rest l := by
  intro l
  induction l with
  | nil => rfl
  | cons c t ih =>
    unfold keyCount at ih ⊢
    by_cases hc : c = k
    · subst hc
      rw [List.countP_cons, List.countP_cons, List.count_cons, ih,
        show lookupRep ((c, r) :: rest) c = some r from by rw [lookupRep_cons, if_pos rfl], hk]
      simp
      try omega
    · have hlc : lookupRep ((k, r) :: rest) c = lookupRep rest c := by
        rw [lookupRep_cons, if_neg (fun hkc => hc hkc.symm)]
      have hbe : (c == k) = false := by simp [hc]
      rw [List.countP_cons, List.countP_cons, List.count_cons, ih, hlc, hbe]
      simp
      try omega

theorem foldl_applyEntry :
    ∀ (entries : List (Char × LDoc)),
      entries.Pairwise (fun e1 e2 => e1.1 ≠ e2.1) →
      (∀ e ∈ entries, ∀ e' ∈ entries, e'.1 ∉ e.2) →
      ∀ (l : LDoc) (acc : Nat),
        entries.foldl applyEntry (l, acc) = (unicodeSubst entries l, acc + keyCount entries l) := by
  intro entries
  induction entries with
  | nil =>
    intro _ _ l acc
    simp [unicodeSubst_nil_entries, keyCount, lookupRep]
  | cons e rest ih =>
    obtain ⟨k, r⟩ := e
    intro hpw hrep l acc
    rw [List.foldl_cons, applyEntry_eq]
    have hrest : rest.Pairwise (fun e1 e2 => e1.1 ≠ e2.1) := hpw.of_cons
    have hkeys : ∀ e' ∈ rest, (k, r).1 ≠ e'.1 := fun e' he' =>
      List.rel_of_pairwise_cons hpw he'
    have hlk : lookupRep rest k = none :=
      lookupRep_eq_none (fun e' he' => fun hc => hkeys e' he' (hc.symm))
    rw [ih hrest
      (fun e2 he2 e3 he3 => hrep e2 (List.mem_cons_of_mem _ he2) e3 (List.mem_cons_of_mem _ he3))]
    have hfst : unicodeSubst rest (replaceChar k r l) = unicodeSubst ((k, r) :: rest) l :=
      unicodeSubst_cons_replace k r rest
        (fun e2 he2 => hrep (k, r) (by simp) e2 (List.mem_cons_of_mem _ he2)) l
    have hsnd : keyCount rest (replaceChar k r l) = keyCount rest l := by
      unfold keyCount
      apply countP_replaceChar
      · simp [hlk]
      · intro c hc
        cases hl : lookupRep rest c with
        | none => simp
        | some v =>
          exact absurd hc ((hrep (k, r) (by simp) (c, v) (by simp [lookupRep_mem hl])))
    rw [hfst, hsnd, keyCount_cons hlk l]
    simp [Nat.add_assoc]

/-- `normalize_unicode_math` is exactly the substitution homomorphism of the
table, and its count is the number of table-key characters. -/
theorem normalize_unicode_math_spec (l : LDoc) :
    normalize_unicode_math l =
      (unicodeSubst UNICODE_MATH_REPLACEMENTS l, keyCount UNICODE_MATH_REPLACEMENTS l) := by
  unfold normalize_unicode_math
  rw [foldl_applyEntry UNICODE_MATH_REPLACEMENTS (by decide) (by decide) l 0]
  simp

theorem count_key_unicodeSubst {entries : List (Char × LDoc)} {key : Char}
    (hkey : (lookupRep entries key).isSome = true)
    (hreps : ∀ e ∈ entries, key ∉ e.2) :
    ∀ l, (unicodeSubst entries l).count key = 0 := by
  intro l
  induction l with
  | nil => rfl
  | cons c t ih =>
    show ((lookupRep entries c).getD [c] ++ unicodeSubst entries t).count key = 0
    rw [List.count_append, ih]
    cases hl : lookupRep entries c with
    | none =>
      have hck : ¬ (c == key) = true := by
        simp
        intro hh
        rw [← hh, hl] at hkey
        simp at hkey
      simp [List.count_cons, hck]
    | some r =>
      have hkr : key ∉ r := hreps (c, r) (lookupRep_mem hl)
      simp [List.count_eq_zero.mpr hkr]

theorem countOcc_unicodeSubst {entries : List (Char × LDoc)} {keyM : Char} {M : LDoc}
    (hM : lookupRep entries keyM = some M)
    (hhead : M.head? = some '\\')
    (hMself : ∀ i, i < M.length → 0 < i → Incomp M (M.drop i))
    (hother : ∀ e ∈ entries, e.1 ≠ keyM → ∀ i, i < e.2.length → Incomp M (e.2.drop i)) :
    ∀ l, '\\' ∉ l → countOcc M (unicodeSubst entries l) = l.count keyM := by
  have hMne : M ≠ [] := by
    intro hh
    rw [hh] at hhead
    simp at hhead
  intro l
  induction l with
  | nil =>
    intro _
    show countOcc M [] = 0
    rw [countOcc_nil, if_neg (fun hp => hMne (List.prefix_nil.mp hp))]
  | cons c t ih =>
    intro hbs
    have hbs' : '\\' ∉ t := fun hh => hbs (by simp [hh])
    have hcb : c ≠ '\\' := fun hh => hbs (by simp [hh])
    show countOcc M ((lookupRep entries c).getD [c] ++ unicodeSubst entries t) =
      (c :: t).count keyM
    cases hl : lookupRep entries c with
    | none =>
      have hck : c ≠ keyM := by
        intro hh
        rw [hh, hM] at hl
        simp at hl
      have h1 : ¬ M <+: (c :: unicodeSubst entries t) := by
        intro hp
        match M, hhead with
        | mc :: mt, hhead =>
          have hmc : mc = '\\' := by simpa using hhead
          exact hcb (((List.cons_prefix_cons.mp hp).1.symm.trans hmc))
      show countOcc M (c :: unicodeSubst entries t) = _
      rw [countOcc_cons, if_neg h1, ih hbs', List.count_cons]
      simp [hck]
    | some r =>
      by_cases hck : c = keyM
      · subst hck
        have hrM : r = M := Option.some.inj (hl.symm.trans hM)
        show countOcc M (r ++ unicodeSubst entries t) = _
        rw [hrM, countOcc_self_append hMne hMself, ih hbs', List.count_cons]
        simp
      · have hinc := hother (c, r) (lookupRep_mem hl) hck
        show countOcc M (r ++ unicodeSubst entries t) = _
        rw [countOcc_append_of_incomp hinc, ih hbs', List.count_cons]
        simp [hck]

theorem countOcc_zero_mono {pat1 pat2 : LDoc} (hp : pat1 <+: pat2) {l : LDoc}
    (h : countOcc pat1 l = 0) : countOcc pat2 l = 0 :=
  countOcc_eq_zero_of_forall
    (fun i hp2 => absurd (hp.trans hp2) (not_prefix_drop_of_countOcc h i))

/-- The two-character pattern of a backslash followed by `b`, the common head
of the begin markers of all three environment patterns. -/
def bqPat : LDoc := "\\b".data

/-!  Documents whose only quotation wrappers immediately follow an `\item`
marker, separated from it only by whitespace. -/

/-- `glueBib s0 [(ws1, m1, s1), …]` is
`s0 ++ \item ++ ws1 ++ B ++ m1 ++ E ++ s1 ++ …` for the quote markers `B`/`E`. -/
def glueBib (s0 : LDoc) : List (LDoc × LDoc × LDoc) → LDoc
  | [] => s0
  | (ws, m, s) :: ps =>
    s0 ++ (itemMarker ++ (ws ++ (beginQuote ++ (m ++ (endQuote ++ glueBib s ps)))))

/-- What quote removal produces on `glueBib s0 ps`: the wrappers vanish, the
item markers and whitespace runs stay. -/
def quoteSpliceBib (s0 : LDoc) : List (LDoc × LDoc × LDoc) → LDoc
  | [] => s0
  | (ws, m, s) :: ps => s0 ++ (itemMarker ++ (ws ++ (stripChars m ++ quoteSpliceBib s ps)))

/-- What the standalone bibliography pass produces on `glueBib s0 ps`:
each item-plus-wrapper collapses to the item marker, one space and the
stripped body. -/
def bibSplice (s0 : LDoc) : List (LDoc × LDoc × LDoc) → LDoc
  | [] => s0
  | (ws, m, s) :: ps => s0 ++ ((itemMarker ++ ' ' :: stripChars m) ++ bibSplice s ps)

/-- Pieces of a bibliography decomposition: the whitespace run is whitespace,
the wrapper body and the filler after it contain no backslash. -/
def BibPiecesOk (ps : List (LDoc × LDoc × LDoc)) : Prop :=
  ∀ q ∈ ps, (∀ a ∈ q.1, isSpaceChar a = true) ∧ '\\' ∉ q.2.1 ∧ '\\' ∉ q.2.2

instance (ps : List (LDoc × LDoc × LDoc)) : Decidable (BibPiecesOk ps) := by
  unfold BibPiecesOk; infer_instance

theorem backslash_mem_beginQuote : '\\' ∈ beginQuote := by decide

theorem backslash_mem_endQuote : '\\' ∈ endQuote := by decide

theorem countOcc_beginQuote_itemMarker_append (ws t : LDoc)
    (hws : ∀ a ∈ ws, isSpaceChar a = true) :
    countOcc beginQuote (itemMarker ++ (ws ++ t)) = countOcc beginQuote t := by
  rw [countOcc_append_of_incomp (by decide :
      ∀ i, i < itemMarker.length → Incomp beginQuote (itemMarker.drop i)),
    countOcc_append_of_incomp
      (incomp_of_head_not_mem (show beginQuote.head? = some '\\' from rfl)
        (backslash_not_mem_of_space hws))]

theorem remove_quote_blocks_glueBib :
    ∀ (ps : List (LDoc × LDoc × LDoc)) (s0 : LDoc), '\\' ∉ s0 → BibPiecesOk ps →
      remove_quote_blocks (glueBib s0 ps) = (quoteSpliceBib s0 ps, ps.length) := by
  intro ps
  induction ps with
  | nil =>
    intro s0 h0 _
    exact remove_quote_blocks_id (countOcc_zero_of_not_mem backslash_mem_beginQuote h0)
  | cons q ps' ih =>
    obtain ⟨ws, m, s⟩ := q
    intro s0 h0 hps
    obtain ⟨hws, hm, hs⟩ := hps (ws, m, s) (by simp)
    show remove_quote_blocks
      (s0 ++ (itemMarker ++ (ws ++ (beginQuote ++ (m ++ (endQuote ++ glueBib s ps')))))) = _
    have hassoc :
        s0 ++ (itemMarker ++ (ws ++ (beginQuote ++ (m ++ (endQuote ++ glueBib s ps'))))) =
          (s0 ++ (itemMarker ++ ws)) ++ (beginQuote ++ (m ++ (endQuote ++ glueBib s ps'))) := by
      simp [List.append_assoc]
    rw [hassoc]
    unfold remove_quote_blocks
    have hx : countOcc beginQuote (s0 ++ (itemMarker ++ ws)) = 0 := by
      rw [countOcc_append_of_incomp
          (incomp_of_head_not_mem (show beginQuote.head? = some '\\' from rfl) h0),
        countOcc_append_of_incomp (by decide :
          ∀ i, i < itemMarker.length → Incomp beginQuote (itemMarker.drop i))]
      exact countOcc_zero_of_not_mem backslash_mem_beginQuote
        (backslash_not_mem_of_space hws)
    rw [subnScan_skip quoteMatchAt_consumes (s0 ++ (itemMarker ++ ws)) _
      (fun i hi => quoteMatchAt_eq_none (not_prefix_straddle hx (by decide) i hi))
      _ (by simp [List.length_append]; omega)]
    rw [subnScan_step quoteMatchAt_consumes
      (quoteMatchAt_append m (glueBib s ps')
        (countOcc_zero_of_not_mem backslash_mem_endQuote hm)) _ (le_refl _)]
    have hg : subnScan quoteMatchAt (glueBib s ps').length (glueBib s ps') =
        (quoteSpliceBib s ps', ps'.length) :=
      ih s hs (fun q hq => hps q (by simp [hq]))
    rw [hg]
    show ((s0 ++ (itemMarker ++ ws)) ++ (stripChars m ++ quoteSpliceBib s ps'),
      ps'.length + 1) = _
    simp [quoteSpliceBib, List.append_assoc]

theorem normalize_bibliography_items_glueBib :
    ∀ (ps : List (LDoc × LDoc × LDoc)) (s0 : LDoc), '\\' ∉ s0 → BibPiecesOk ps →
      normalize_bibliography_items (glueBib s0 ps) = (bibSplice s0 ps, ps.length) := by
  intro ps
  induction ps with
  | nil =>
    intro s0 h0 _
    exact normalize_bibliography_items_id
      (countOcc_zero_of_not_mem backslash_mem_beginQuote h0)
  | cons q ps' ih =>
    obtain ⟨ws, m, s⟩ := q
    intro s0 h0 hps
    obtain ⟨hws, hm, hs⟩ := hps (ws, m, s) (by simp)
    show normalize_bibliography_items
      (s0 ++ (itemMarker ++ (ws ++ (beginQuote ++ (m ++ (endQuote ++ glueBib s ps')))))) = _
    unfold normalize_bibliography_items
    have hx : ∀ i, i < s0.length → ¬ itemMarker <+:
        (s0.drop i ++ (itemMarker ++ (ws ++ (beginQuote ++ (m ++ (endQuote ++ glueBib s ps')))))) :=
      not_prefix_straddle (countOcc_zero_of_not_mem (by decide : '\\' ∈ itemMarker) h0)
        (by decide)
    rw [subnScan_skip bibitemMatchAt_consumes s0 _
      (fun i hi => bibitemMatchAt_eq_none (hx i hi)) _ (by simp [List.length_append])]
    rw [subnScan_step bibitemMatchAt_consumes
      (bibitemMatchAt_append ws m (glueBib s ps') hws
        (countOcc_zero_of_not_mem backslash_mem_endQuote hm)) _ (le_refl _)]
    have hg : subnScan bibitemMatchAt (glueBib s ps').length (glueBib s ps') =
        (bibSplice s ps', ps'.length) :=
      ih s hs (fun q hq => hps q (by simp [hq]))
    rw [hg]
    rfl

theorem countOcc_bqPat_quoteSpliceBib :
    ∀ (ps : List (LDoc × LDoc × LDoc)) (s0 : LDoc), '\\' ∉ s0 → BibPiecesOk ps →
      countOcc bqPat (quoteSpliceBib s0 ps) = 0 := by
  intro ps
  induction ps with
  | nil =>
    intro s0 h0 _
    exact countOcc_zero_of_not_mem (by decide : '\\' ∈ bqPat) h0
  | cons q ps' ih =>
    obtain ⟨ws, m, s⟩ := q
    intro s0 h0 hps
    obtain ⟨hws, hm, hs⟩ := hps (ws, m, s) (by simp)
    show countOcc bqPat
      (s0 ++ (itemMarker ++ (ws ++ (stripChars m ++ quoteSpliceBib s ps')))) = 0
    rw [countOcc_append_of_incomp
        (incomp_of_head_not_mem (show bqPat.head? = some '\\' from rfl) h0),
      countOcc_append_of_incomp (by decide :
        ∀ i, i < itemMarker.length → Incomp bqPat (itemMarker.drop i)),
      countOcc_append_of_incomp
        (incomp_of_head_not_mem (show bqPat.head? = some '\\' from rfl)
          (backslash_not_mem_of_space hws)),
      countOcc_append_of_incomp
        (incomp_of_head_not_mem (show bqPat.head? = some '\\' from rfl)
          (not_mem_stripChars hm))]
    exact ih s hs (fun q hq => hps q (by simp [hq]))

theorem countOcc_bqPat_unicodeSubst :
    ∀ l, countOcc bqPat l = 0 →
      countOcc bqPat (unicodeSubst UNICODE_MATH_REPLACEMENTS l) = 0 := by
  intro l
  induction l with
  | nil => intro _; decide
  | cons c t ih =>
    intro h
    rw [countOcc_cons] at h
    have h2 : countOcc bqPat t = 0 := by omega
    have h1 : ¬ bqPat <+: c :: t := by
      intro hp
      rw [if_pos hp] at h
      omega
    show countOcc bqPat ((lookupRep UNICODE_MATH_REPLACEMENTS c).getD [c] ++
      unicodeSubst UNICODE_MATH_REPLACEMENTS t) = 0
    cases hl : lookupRep UNICODE_MATH_REPLACEMENTS c with
    | some r =>
      have hinc : ∀ i, i < r.length → Incomp bqPat (r.drop i) := by
        have hfact : ∀ e ∈ UNICODE_MATH_REPLACEMENTS, ∀ i, i < e.2.length →
            Incomp bqPat (e.2.drop i) := by decide
        exact hfact (c, r) (lookupRep_mem hl)
      show countOcc bqPat (r ++ unicodeSubst UNICODE_MATH_REPLACEMENTS t) = 0
      rw [countOcc_append_of_incomp hinc, ih h2]
    | none =>
      show countOcc bqPat (c :: unicodeSubst UNICODE_MATH_REPLACEMENTS t) = 0
      rw [countOcc_cons, if_neg ?_, ih h2]
      intro hp
      obtain ⟨hc1, hp2⟩ := List.cons_prefix_cons.mp
        (show '\\' :: ['b'] <+: c :: unicodeSubst UNICODE_MATH_REPLACEMENTS t from hp)
      cases t with
      | nil =>
        have : (['b'] : LDoc) = [] := List.prefix_nil.mp hp2
        simp at this
      | cons c2 t2 =>
        have hhd : (unicodeSubst UNICODE_MATH_REPLACEMENTS (c2 :: t2)).head? = some 'b' := by
          cases hp2 with
          | intro w hw => rw [← hw]; rfl
        rw [show unicodeSubst UNICODE_MATH_REPLACEMENTS (c2 :: t2) =
          (lookupRep UNICODE_MATH_REPLACEMENTS c2).getD [c2] ++
            unicodeSubst UNICODE_MATH_REPLACEMENTS t2 from rfl] at hhd
        cases hl2 : lookupRep UNICODE_MATH_REPLACEMENTS c2 with
        | some r2 =>
          have hr2 : r2.head? = some '\\' := by
            have hfact2 : ∀ e ∈ UNICODE_MATH_REPLACEMENTS, e.2.head? = some '\\' := by decide
            exact hfact2 (c2, r2) (lookupRep_mem hl2)
          rw [hl2] at hhd
          have hr2ne : r2 ≠ [] := by
            intro hh
            rw [hh] at hr2
            simp at hr2
          rw [show ((some r2).getD [c2] : LDoc) = r2 from rfl,
            List.head?_append_of_ne_nil r2 hr2ne, hr2] at hhd
          simp at hhd
        | none =>
          rw [hl2] at hhd
          have hc2 : c2 = 'b' := by
            rw [show ((none : Option LDoc).getD [c2] : LDoc) = [c2] from rfl] at hhd
            simpa using hhd
          exact h1 (by
            rw [← hc1, hc2]
            exact ⟨t2, rfl⟩)


/-!  The minipage stripping inside a longtable body, and the longtable pass on
a document made of two tables. -/

theorem strip_minipages_single (u a1 a2 w v : LDoc) (hu : countOcc beginMinipage u = 0)
    (ha1 : ']' ∉ a1) (ha2 : '\x7d' ∉ a2) (hw : countOcc endMinipage w = 0)
    (hv : countOcc beginMinipage v = 0) :
    strip_minipages (u ++ (beginMinipage ++ (a1 ++ (']' :: '\x7b' ::
      (a2 ++ ('\x7d' :: (w ++ (endMinipage ++ v)))))))) = u ++ (stripChars w ++ v) := by
  unfold strip_minipages
  rw [subnScan_skip minipageMatchAt_consumes u _
    (fun i hi => minipageMatchAt_eq_none (not_prefix_straddle hu (by decide) i hi))
    _ (by simp [List.length_append]; try omega)]
  rw [subnScan_step minipageMatchAt_consumes
    (minipageMatchAt_append a1 a2 w v ha1 ha2 hw) _ (le_refl _)]
  rw [subnScan_id v
    (fun i _ => minipageMatchAt_eq_none (not_prefix_drop_of_countOcc hv i)) _]

theorem strip_minipages_single_ne (u a1 a2 w v : LDoc) (hu : countOcc beginMinipage u = 0)
    (ha1 : ']' ∉ a1) (ha2 : '\x7d' ∉ a2) (hw : countOcc endMinipage w = 0)
    (hv : countOcc beginMinipage v = 0) :
    strip_minipages (u ++ (beginMinipage ++ (a1 ++ (']' :: '\x7b' ::
      (a2 ++ ('\x7d' :: (w ++ (endMinipage ++ v)))))))) ≠
      u ++ (beginMinipage ++ (a1 ++ (']' :: '\x7b' ::
        (a2 ++ ('\x7d' :: (w ++ (endMinipage ++ v))))))) := by
  rw [strip_minipages_single u a1 a2 w v hu ha1 ha2 hw hv]
  intro heq
  have hlen := congrArg List.length heq
  have hsw := stripChars_length_le w
  have hbm : beginMinipage.length = 17 := rfl
  have hem : endMinipage.length = 14 := rfl
  simp [List.length_append, hbm, hem] at hlen
  omega

theorem simplify_longtables_two (s0 c1 b1 s1 c2 b2 s2 : LDoc)
    (hs0 : countOcc beginLongtable s0 = 0) (hs1 : countOcc beginLongtable s1 = 0)
    (hs2 : countOcc beginLongtable s2 = 0)
    (hc1 : '\x7d' ∉ c1) (hc2 : '\x7d' ∉ c2)
    (hb1 : countOcc endLongtable b1 = 0) (hb2 : countOcc endLongtable b2 = 0)
    (hch : strip_minipages b1 ≠ b1) (hmp2 : countOcc beginMinipage b2 = 0) :
    simplify_longtables
      (s0 ++ (beginLongtable ++ (c1 ++ ('\x7d' :: (b1 ++ (endLongtable ++
        (s1 ++ (beginLongtable ++ (c2 ++ ('\x7d' :: (b2 ++ (endLongtable ++ s2)))))))))))) =
    (s0 ++ ((beginLongtable ++ c1 ++ '\x7d' :: (strip_minipages b1 ++ endLongtable)) ++
      (s1 ++ ((beginLongtable ++ c2 ++ '\x7d' :: (b2 ++ endLongtable)) ++ s2))), 1) := by
  unfold simplify_longtables
  rw [subnScan_skip longtableMatchAt_consumes s0 _
    (fun i hi => longtableMatchAt_eq_none (not_prefix_straddle hs0 (by decide) i hi))
    _ (by simp [List.length_append]; try omega)]
  rw [subnScan_step longtableMatchAt_consumes
    (longtableMatchAt_append c1 b1 _ hc1 hb1) _ (le_refl _)]
  rw [subnScan_skip longtableMatchAt_consumes s1 _
    (fun i hi => longtableMatchAt_eq_none (not_prefix_straddle hs1 (by decide) i hi))
    _ (by simp [List.length_append]; try omega)]
  rw [subnScan_step longtableMatchAt_consumes
    (longtableMatchAt_append c2 b2 s2 hc2 hb2) _ (le_refl _)]
  rw [subnScan_id s2
    (fun i _ => longtableMatchAt_eq_none (not_prefix_drop_of_countOcc hs2 i)) _]
  rw [if_neg hch, if_pos (strip_minipages_id hmp2), strip_minipages_id hmp2]

/-!  The unicode pass when no table key occurs, and when its count is zero. -/

theorem foldl_applyEntry_id :
    ∀ (entries : List (Char × LDoc)) (l : LDoc) (acc : Nat),
      (∀ e ∈ entries, e.1 ∉ l) → entries.foldl applyEntry (l, acc) = (l, acc) := by
  intro entries
  induction entries with
  | nil => intro l acc _; rfl
  | cons e rest ih =>
    intro l acc h
    rw [List.foldl_cons, show applyEntry (l, acc) e = (l, acc) from by
      unfold applyEntry; rw [if_neg (h e (by simp))]]
    exact ih l acc (fun e2 he2 => h e2 (by simp [he2]))

theorem normalize_unicode_math_id {l : LDoc}
    (h : ∀ e ∈ UNICODE_MATH_REPLACEMENTS, e.1 ∉ l) :
    normalize_unicode_math l = (l, 0) :=
  foldl_applyEntry_id _ l 0 h

theorem normalize_unicode_math_count_zero {l : LDoc}
    (h : (normalize_unicode_math l).2 = 0) : (normalize_unicode_math l).1 = l := by
  rw [normalize_unicode_math_spec] at h ⊢
  show unicodeSubst UNICODE_MATH_REPLACEMENTS l = l
  apply unicodeSubst_eq_self
  intro c hc
  unfold keyCount at h
  have := List.countP_eq_zero.mp h c hc
  exact Option.not_isSome_iff_eq_none.mp this

/-!  Count zero forces the identity, pass by pass. -/

theorem remove_quote_blocks_count_zero {l : LDoc} (h : (remove_quote_blocks l).2 = 0) :
    (remove_quote_blocks l).1 = l := by
  apply subnScan_fst_of_count_eq_zero _ _ _ h
  intro l' r p hm
  obtain ⟨mid, _, _, hk⟩ := quoteMatchAt_inv hm
  omega

theorem normalize_bibliography_items_count_zero {l : LDoc}
    (h : (normalize_bibliography_items l).2 = 0) :
    (normalize_bibliography_items l).1 = l := by
  apply subnScan_fst_of_count_eq_zero _ _ _ h
  intro l' r p hm
  obtain ⟨ws, mid, _, _, _, hk⟩ := bibitemMatchAt_inv hm
  omega

theorem simplify_longtables_count_zero {l : LDoc} (h : (simplify_longtables l).2 = 0) :
    (simplify_longtables l).1 = l := by
  apply subnScan_fst_of_count_eq_zero _ _ _ h
  intro l' r p hm
  exact longtableMatchAt_zero_reconstruct hm

/-!  No complete pattern match means the pass is a silent no-op. -/

/-- The quote pattern has a complete match somewhere in `l`: a begin marker
with an end marker at least a begin-marker length later. -/
def quoteMatchable (l : LDoc) : Prop :=
  ∃ i, i < l.length ∧ ∃ j, j < l.length ∧ i + beginQuote.length ≤ j ∧
    beginQuote <+: l.drop i ∧ endQuote <+: l.drop j

instance (l : LDoc) : Decidable (quoteMatchable l) := by
  unfold quoteMatchable; infer_instance

theorem drop_ne_nil_lt {l : LDoc} {j : Nat} (h : l.drop j ≠ []) : j < l.length := by
  by_contra hj
  exact h (List.drop_eq_nil_of_le (by omega))

theorem remove_quote_blocks_noop {l : LDoc} (h : ¬ quoteMatchable l) :
    remove_quote_blocks l = (l, 0) := by
  apply subnScan_id
  intro i hi
  cases hm : quoteMatchAt (l.drop i) with
  | none => rfl
  | some v =>
    obtain ⟨r, p, k⟩ := v
    obtain ⟨mid, hdec, _, _⟩ := quoteMatchAt_inv hm
    exfalso
    have h2 : (l.drop i).drop (beginQuote.length + mid.length) = endQuote ++ p := by
      rw [hdec,
        show beginQuote ++ (mid ++ (endQuote ++ p)) =
          (beginQuote ++ mid) ++ (endQuote ++ p) from by simp [List.append_assoc]]
      exact List.drop_left' (by simp)
    have h3 : l.drop (i + (beginQuote.length + mid.length)) = endQuote ++ p := by
      rw [← List.drop_drop]
      exact h2
    apply h
    refine ⟨i, hi, i + (beginQuote.length + mid.length), ?_, by omega, ?_, ?_⟩
    · apply drop_ne_nil_lt
      rw [h3]
      simp [endQuote]
    · rw [hdec]; exact List.prefix_append _ _
    · rw [h3]; exact List.prefix_append _ _

theorem simplify_longtables_noop {l : LDoc}
    (h : ∀ i, i < l.length → longtableMatchAt (l.drop i) = none) :
    simplify_longtables l = (l, 0) :=
  subnScan_id l h l.length

theorem normalize_bibliography_items_noop {l : LDoc}
    (h : ∀ i, i < l.length → bibitemMatchAt (l.drop i) = none) :
    normalize_bibliography_items l = (l, 0) :=
  subnScan_id l h l.length

theorem backslash_not_mem_spliceQuote :
    ∀ (ps : List (LDoc × LDoc)) (s0 : LDoc), '\\' ∉ s0 →
      (∀ q ∈ ps, '\\' ∉ q.1 ∧ '\\' ∉ q.2) → '\\' ∉ spliceQuote s0 ps := by
  intro ps
  induction ps with
  | nil => intro s0 h0 _; exact h0
  | cons q ps' ih =>
    obtain ⟨m, s⟩ := q
    intro s0 h0 hps
    obtain ⟨hm, hs⟩ := hps (m, s) (by simp)
    show '\\' ∉ s0 ++ (stripChars m ++ spliceQuote s ps')
    simp only [List.mem_append]
    push_neg
    exact ⟨h0, not_mem_stripChars hm, ih s hs (fun q hq => hps q (by simp [hq]))⟩

/-- The orchestrator, written out as the spec words it: the four passes in the
fixed order, each consuming the previous pass's output document, the four
counts aggregated into the report. -/
def cleanupPipelineSpec (l : LDoc) : LDoc × CleanupStats :=
  ((normalize_bibliography_items (simplify_longtables
      (normalize_unicode_math (remove_quote_blocks l).1).1).1).1,
    ⟨(remove_quote_blocks l).2,
     (normalize_unicode_math (remove_quote_blocks l).1).2,
     (simplify_longtables (normalize_unicode_math (remove_quote_blocks l).1).1).2,
     (normalize_bibliography_items (simplify_longtables
       (normalize_unicode_math (remove_quote_blocks l).1).1).1).2⟩)

theorem cleanup_latex_eq (l : LDoc) : cleanup_latex l = cleanupPipelineSpec l := rfl

/-!  The claims. -/

/-- C1: the spec's end-to-end example claims the pipeline turns
`\begin{quote}Hello ℝ\end{quote}` into `Hello \mathbb{R}` with report
`(1, 1, 0, 0)`.  The counts are right, but because the replacement strings of
`UNICODE_MATH_REPLACEMENTS` are raw strings (`r"\\mathbb{R}"`, two literal
backslashes) inserted verbatim by `str.replace`, the code actually returns
`Hello \\mathbb{R}` with a doubled backslash — the code, not the spec, is at
fault here, the table having clearly been written for a context that
interprets `\\` as an escaped backslash. -/
theorem C1_pipeline_double_backslash :
    cleanup_latex "\\begin{quote}Hello ℝ\\end{quote}".data =
      ("Hello \\\\mathbb\x7bR\x7d".data, ⟨1, 1, 0, 0⟩) ∧
    "Hello \\\\mathbb\x7bR\x7d".data ≠ "Hello \\mathbb\x7bR\x7d".data := by
  decide

/-- C5 counterexample: the document `\begin{quo\begin{quote}te}\end{quote}`
contains exactly one properly terminated, non-nested quotation wrapper (its
decomposition pieces are free of marker occurrences), and `remove_quote_blocks`
does return count 1; but splicing creates a brand-new begin marker, so the
output `\begin{quote}` does not have zero occurrences of the wrapper markers,
refuting C5 as stated. -/
theorem C5_counterexample :
    glueQuote "\\begin\x7bquo".data [("te\x7d".data, ([] : LDoc))] =
      "\\begin\x7bquo\\begin\x7bquote\x7dte\x7d\\end\x7bquote\x7d".data ∧
    QuoteFree "\\begin\x7bquo".data ∧ QuoteFree "te\x7d".data ∧ QuoteFree ([] : LDoc) ∧
    remove_quote_blocks "\\begin\x7bquo\\begin\x7bquote\x7dte\x7d\\end\x7bquote\x7d".data =
      ("\\begin{quote}".data, 1) ∧
    countOcc beginQuote
      (remove_quote_blocks "\\begin\x7bquo\\begin\x7bquote\x7dte\x7d\\end\x7bquote\x7d".data).1 = 1 := by
  decide

/-- C5 (amended): for a document `s0 ++ B ++ m1 ++ E ++ s1 ++ … ++ B ++ mk ++
E ++ sk` whose pieces contain no occurrence of the wrapper markers (exactly
`k` non-nested, properly terminated wrappers), `remove_quote_blocks` returns
the spliced document with every wrapper replaced by its stripped body and a
count equal to `k`; the claim's further conclusion that the output has zero
marker occurrences holds under the additional assumption forced by the
counterexample, namely that no backslash occurs outside the markers. -/
theorem C5_amended (s0 : LDoc) (ps : List (LDoc × LDoc))
    (h0 : QuoteFree s0) (hps : ∀ q ∈ ps, QuoteFree q.1 ∧ QuoteFree q.2) :
    remove_quote_blocks (glueQuote s0 ps) = (spliceQuote s0 ps, ps.length) ∧
    ('\\' ∉ s0 → (∀ q ∈ ps, '\\' ∉ q.1 ∧ '\\' ∉ q.2) →
      countOcc beginQuote (spliceQuote s0 ps) = 0 ∧
      countOcc endQuote (spliceQuote s0 ps) = 0) := by
  refine ⟨remove_quote_blocks_glue ps s0 h0 hps, fun hb0 hbps => ?_⟩
  have hmem : '\\' ∉ spliceQuote s0 ps := backslash_not_mem_spliceQuote ps s0 hb0 hbps
  exact ⟨countOcc_zero_of_not_mem backslash_mem_beginQuote hmem,
    countOcc_zero_of_not_mem backslash_mem_endQuote hmem⟩

/-- C5 witness: the amended claim applied to a concrete two-wrapper document. -/
theorem C5_witness :
    remove_quote_blocks (glueQuote "A ".data [(" x ".data, "B".data), ("y".data, "C".data)]) =
      (spliceQuote "A ".data [(" x ".data, "B".data), ("y".data, "C".data)], 2) ∧
    countOcc beginQuote
      (spliceQuote "A ".data [(" x ".data, "B".data), ("y".data, "C".data)]) = 0 ∧
    countOcc endQuote
      (spliceQuote "A ".data [(" x ".data, "B".data), ("y".data, "C".data)]) = 0 := by
  have h := C5_amended "A ".data [(" x ".data, "B".data), ("y".data, "C".data)]
    (by decide) (by decide)
  exact ⟨h.1, (h.2 (by decide) (by decide)).1, (h.2 (by decide) (by decide)).2⟩

/-- C4 counterexample: the document
`\begin{quo\begin{quote}te}inner\end{quo\end{quote}te}` contains exactly one
non-nested wrapper (pieces marker-free), yet removing it splices a brand-new
complete wrapper together, so the second run of `remove_quote_blocks` rewrites
again and returns count 1, not 0, refuting C4 as stated. -/
theorem C4_counterexample :
    glueQuote "\\begin\x7bquo".data [("te\x7dinner\\end\x7bquo".data, "te\x7d".data)] =
      "\\begin\x7bquo\\begin\x7bquote\x7dte\x7dinner\\end\x7bquo\\end\x7bquote\x7dte\x7d".data ∧
    QuoteFree "\\begin\x7bquo".data ∧ QuoteFree "te\x7dinner\\end\x7bquo".data ∧
    QuoteFree "te\x7d".data ∧
    remove_quote_blocks "\\begin\x7bquo\\begin\x7bquote\x7dte\x7dinner\\end\x7bquo\\end\x7bquote\x7dte\x7d".data =
      ("\\begin{quote}inner\\end{quote}".data, 1) ∧
    remove_quote_blocks "\\begin{quote}inner\\end{quote}".data = ("inner".data, 1) := by
  decide

/-- C4 (amended): on a document made of non-nested, properly terminated
wrappers whose pieces contain no backslash at all (so that splicing cannot
fabricate new markers — the restriction forced by the counterexample),
applying `remove_quote_blocks` to the output of `remove_quote_blocks` returns
that output unchanged with count 0. -/
theorem C4_amended (s0 : LDoc) (ps : List (LDoc × LDoc))
    (h0 : '\\' ∉ s0) (hps : ∀ q ∈ ps, '\\' ∉ q.1 ∧ '\\' ∉ q.2) :
    remove_quote_blocks (remove_quote_blocks (glueQuote s0 ps)).1 =
      ((remove_quote_blocks (glueQuote s0 ps)).1, 0) := by
  have hq0 : QuoteFree s0 :=
    ⟨countOcc_zero_of_not_mem backslash_mem_beginQuote h0,
     countOcc_zero_of_not_mem backslash_mem_endQuote h0⟩
  have hqps : ∀ q ∈ ps, QuoteFree q.1 ∧ QuoteFree q.2 := by
    intro q hq
    obtain ⟨h1, h2⟩ := hps q hq
    exact ⟨⟨countOcc_zero_of_not_mem backslash_mem_beginQuote h1,
        countOcc_zero_of_not_mem backslash_mem_endQuote h1⟩,
      ⟨countOcc_zero_of_not_mem backslash_mem_beginQuote h2,
        countOcc_zero_of_not_mem backslash_mem_endQuote h2⟩⟩
  rw [remove_quote_blocks_glue ps s0 hq0 hqps]
  exact remove_quote_blocks_id (countOcc_zero_of_not_mem backslash_mem_beginQuote
    (backslash_not_mem_spliceQuote ps s0 h0 hps))

/-- C4 witness: the amended claim applied to a concrete one-wrapper document. -/
theorem C4_witness :
    remove_quote_blocks
        (remove_quote_blocks (glueQuote "A".data [(" hi ".data, "B".data)])).1 =
      ((remove_quote_blocks (glueQuote "A".data [(" hi ".data, "B".data)])).1, 0) :=
  C4_amended "A".data [(" hi ".data, "B".data)] (by decide) (by decide)

/-- C2 counterexample: a document whose only quotation wrappers (its
decomposition pieces are marker-free, the whitespace runs are whitespace)
each appear immediately after an `\item` marker, on which the full pipeline
nevertheless reports a bibliography-normalization count of 1, not 0: quote
removal splices the marker-free fragments into a brand-new wrapper that the
bibliography pass then finds right after an `\item`.  The standalone count is
2, which matches the number of such list items as the claim says. -/
theorem C2_counterexample :
    glueBib ([] : LDoc)
        [(" ".data, "\\begin\x7bquo".data, "te\x7dX".data),
         (" ".data, "\\end\x7bquo".data, "te\x7dY".data)] =
      ("\\item \\begin\x7bquote\x7d\\begin\x7bquo\\end\x7bquote\x7dte\x7dX" ++
        "\\item \\begin\x7bquote\x7d\\end\x7bquo\\end\x7bquote\x7dte\x7dY").data ∧
    (∀ a ∈ " ".data, isSpaceChar a = true) ∧
    QuoteFree "\\begin\x7bquo".data ∧ QuoteFree "te\x7dX".data ∧
    QuoteFree "\\end\x7bquo".data ∧ QuoteFree "te\x7dY".data ∧
    (cleanup_latex (("\\item \\begin\x7bquote\x7d\\begin\x7bquo\\end\x7bquote\x7dte\x7dX" ++
        "\\item \\begin\x7bquote\x7d\\end\x7bquo\\end\x7bquote\x7dte\x7dY").data)).2.normalized_bibliography_items
      = 1 ∧
    (normalize_bibliography_items (("\\item \\begin\x7bquote\x7d\\begin\x7bquo\\end\x7bquote\x7dte\x7dX" ++
        "\\item \\begin\x7bquote\x7d\\end\x7bquo\\end\x7bquote\x7dte\x7dY").data)).2 = 2 := by
  decide

/-- C2 (amended): for a document `s0 ++ \item ++ ws1 ++ B ++ m1 ++ E ++ s1 ++
… ++ \item ++ wsk ++ B ++ mk ++ E ++ sk` in which, as forced by the
counterexample, no backslash occurs outside the markers, the full pipeline
reports a bibliography-normalization count of 0 (the quote pass has removed
every wrapper), while the standalone bibliography pass on the original
document counts exactly the `k` list items. -/
theorem C2_amended (s0 : LDoc) (ps : List (LDoc × LDoc × LDoc))
    (h0 : '\\' ∉ s0) (hps : BibPiecesOk ps) :
    (cleanup_latex (glueBib s0 ps)).2.normalized_bibliography_items = 0 ∧
    (normalize_bibliography_items (glueBib s0 ps)).2 = ps.length := by
  have hq := remove_quote_blocks_glueBib ps s0 h0 hps
  have hbq : countOcc bqPat (quoteSpliceBib s0 ps) = 0 :=
    countOcc_bqPat_quoteSpliceBib ps s0 h0 hps
  have hbq2 : countOcc bqPat
      (unicodeSubst UNICODE_MATH_REPLACEMENTS (quoteSpliceBib s0 ps)) = 0 :=
    countOcc_bqPat_unicodeSubst _ hbq
  have hlt := simplify_longtables_id
    (countOcc_zero_mono (by decide : bqPat <+: beginLongtable) hbq2)
  have hbib := normalize_bibliography_items_id
    (countOcc_zero_mono (by decide : bqPat <+: beginQuote) hbq2)
  constructor
  · unfold cleanup_latex
    simp only [hq, normalize_unicode_math_spec, hlt, hbib]
  · rw [normalize_bibliography_items_glueBib ps s0 h0 hps]

/-- C2 witness: the amended claim applied to a concrete one-item document. -/
theorem C2_witness :
    (cleanup_latex (glueBib "Intro ".data
        [(" ".data, "ref one".data, " tail".data)])).2.normalized_bibliography_items = 0 ∧
    (normalize_bibliography_items (glueBib "Intro ".data
        [(" ".data, "ref one".data, " tail".data)])).2 = 1 :=
  C2_amended "Intro ".data [(" ".data, "ref one".data, " tail".data)]
    (by decide) (by decide)

/-- C3 counterexample: the first table key is `Ʈ` (U+01AE), not `τ` (U+03C4),
so the claimed symbol list is wrong; moreover, even reading the six symbols
off the code, the input `\\tauƮ𝒵ℤℝℚℕ` contains each of the six table symbols
exactly once, yet after normalization the ASCII macro string `\\tau` is
present twice, refuting the claim's "each macro present exactly once". -/
theorem C3_counterexample :
    UNICODE_MATH_REPLACEMENTS.map Prod.fst = ['Ʈ', '𝒵', 'ℤ', 'ℝ', 'ℚ', 'ℕ'] ∧
    ¬ ('τ' ∈ UNICODE_MATH_REPLACEMENTS.map Prod.fst) ∧
    (∀ e ∈ UNICODE_MATH_REPLACEMENTS, ("\\\\tauƮ𝒵ℤℝℚℕ".data).count e.1 = 1) ∧
    countOcc "\\\\tau".data (normalize_unicode_math "\\\\tauƮ𝒵ℤℝℚℕ".data).1 = 2 := by
  decide

theorem keyCount_nil_entries (l : LDoc) : keyCount ([] : List (Char × LDoc)) l = 0 := by
  unfold keyCount
  apply List.countP_eq_zero.mpr
  intro c _
  simp [lookupRep]

theorem keyCount_table (l : LDoc) :
    keyCount UNICODE_MATH_REPLACEMENTS l =
      l.count 'Ʈ' + l.count '𝒵' + l.count 'ℤ' + l.count 'ℝ' + l.count 'ℚ' + l.count 'ℕ' := by
  unfold UNICODE_MATH_REPLACEMENTS
  rw [keyCount_cons (by decide), keyCount_cons (by decide), keyCount_cons (by decide),
    keyCount_cons (by decide), keyCount_cons (by decide), keyCount_cons (by decide),
    keyCount_nil_entries]
  omega

/-- C3 (amended): the table has exactly six entries, whose symbols are `Ʈ`,
`𝒵`, `ℤ`, `ℝ`, `ℚ`, `ℕ` (with `Ʈ` in place of the claimed `τ`); for any
document containing each of the six symbols exactly once and — as forced by
the counterexample — containing no backslash, `normalize_unicode_math`
returns a document with zero occurrences of any of the six symbols, a total
count of 6, and each symbol's ASCII macro string present exactly once. -/
theorem C3_amended (l : LDoc) (hb : '\\' ∉ l)
    (hcount : ∀ e ∈ UNICODE_MATH_REPLACEMENTS, l.count e.1 = 1) :
    UNICODE_MATH_REPLACEMENTS.length = 6 ∧
    (normalize_unicode_math l).2 = 6 ∧
    (∀ e ∈ UNICODE_MATH_REPLACEMENTS, ((normalize_unicode_math l).1).count e.1 = 0) ∧
    (∀ e ∈ UNICODE_MATH_REPLACEMENTS, countOcc e.2 (normalize_unicode_math l).1 = 1) := by
  refine ⟨by decide, ?_, ?_, ?_⟩
  · rw [normalize_unicode_math_spec]
    show keyCount UNICODE_MATH_REPLACEMENTS l = 6
    rw [keyCount_table,
      hcount ('Ʈ', "\\\\tau".data) (by decide),
      hcount ('𝒵', "\\\\mathcal{Z}".data) (by decide),
      hcount ('ℤ', "\\\\mathbb{Z}".data) (by decide),
      hcount ('ℝ', "\\\\mathbb{R}".data) (by decide),
      hcount ('ℚ', "\\\\mathbb{Q}".data) (by decide),
      hcount ('ℕ', "\\\\mathbb{N}".data) (by decide)]
  · intro e he
    rw [normalize_unicode_math_spec]
    show (unicodeSubst UNICODE_MATH_REPLACEMENTS l).count e.1 = 0
    have hkey : ∀ e2 ∈ UNICODE_MATH_REPLACEMENTS,
        (lookupRep UNICODE_MATH_REPLACEMENTS e2.1).isSome = true := by decide
    have hreps : ∀ e2 ∈ UNICODE_MATH_REPLACEMENTS,
        ∀ e3 ∈ UNICODE_MATH_REPLACEMENTS, e2.1 ∉ e3.2 := by decide
    exact count_key_unicodeSubst (hkey e he) (fun e3 he3 => hreps e he e3 he3) l
  · intro e he
    rw [normalize_unicode_math_spec]
    show countOcc e.2 (unicodeSubst UNICODE_MATH_REPLACEMENTS l) = 1
    have hM : ∀ e2 ∈ UNICODE_MATH_REPLACEMENTS,
        lookupRep UNICODE_MATH_REPLACEMENTS e2.1 = some e2.2 := by decide
    have hhead : ∀ e2 ∈ UNICODE_MATH_REPLACEMENTS, e2.2.head? = some '\\' := by decide
    have hself : ∀ e2 ∈ UNICODE_MATH_REPLACEMENTS,
        ∀ i, i < e2.2.length → 0 < i → Incomp e2.2 (e2.2.drop i) := by decide
    have hoth : ∀ e2 ∈ UNICODE_MATH_REPLACEMENTS, ∀ e3 ∈ UNICODE_MATH_REPLACEMENTS,
        e3.1 ≠ e2.1 → ∀ i, i < e3.2.length → Incomp e2.2 (e3.2.drop i) := by decide
    rw [countOcc_unicodeSubst (hM e he) (hhead e he) (hself e he)
      (fun e3 he3 hne => hoth e he e3 he3 hne) l hb]
    exact hcount e he

/-- C3 witness: the amended claim applied to a concrete document holding each
of the six symbols exactly once. -/
theorem C3_witness :
    UNICODE_MATH_REPLACEMENTS.length = 6 ∧
    (normalize_unicode_math "xƮy𝒵ℤℝzℚℕ".data).2 = 6 ∧
    (∀ e ∈ UNICODE_MATH_REPLACEMENTS,
      ((normalize_unicode_math "xƮy𝒵ℤℝzℚℕ".data).1).count e.1 = 0) ∧
    (∀ e ∈ UNICODE_MATH_REPLACEMENTS,
      countOcc e.2 (normalize_unicode_math "xƮy𝒵ℤℝzℚℕ".data).1 = 1) :=
  C3_amended "xƮy𝒵ℤℝzℚℕ".data (by decide) (by decide)

/-- C6: on a document with exactly two long-table environments — the first
one's body holding exactly one page-fragment (minipage) wrapper, the second
one's body holding none — `simplify_longtables` reports a count of 1; the
first table keeps its column specification verbatim and loses only the
wrapper's markers (the wrapper replaced by its stripped content), and the
second table is reconstructed character-for-character unchanged.  A table
contributes to the count exactly when stripping changed its body, which is
the case here for the first table only. -/
theorem C6_longtable_selective
    (s0 c1 u a1 a2 w v s1 c2 b2 s2 : LDoc)
    (hs0 : countOcc beginLongtable s0 = 0) (hs1 : countOcc beginLongtable s1 = 0)
    (hs2 : countOcc beginLongtable s2 = 0)
    (hc1 : '\x7d' ∉ c1) (hc2 : '\x7d' ∉ c2)
    (hu : countOcc beginMinipage u = 0) (ha1 : ']' ∉ a1) (ha2 : '\x7d' ∉ a2)
    (hw : countOcc endMinipage w = 0) (hv : countOcc beginMinipage v = 0)
    (hb1 : countOcc endLongtable (u ++ (beginMinipage ++ (a1 ++ (']' :: '\x7b' ::
      (a2 ++ ('\x7d' :: (w ++ (endMinipage ++ v)))))))) = 0)
    (hb2 : countOcc endLongtable b2 = 0) (hmp2 : countOcc beginMinipage b2 = 0) :
    simplify_longtables
      (s0 ++ (beginLongtable ++ (c1 ++ ('\x7d' ::
        ((u ++ (beginMinipage ++ (a1 ++ (']' :: '\x7b' ::
          (a2 ++ ('\x7d' :: (w ++ (endMinipage ++ v)))))))) ++ (endLongtable ++
        (s1 ++ (beginLongtable ++ (c2 ++ ('\x7d' ::
          (b2 ++ (endLongtable ++ s2)))))))))))) =
    (s0 ++ ((beginLongtable ++ c1 ++ '\x7d' ::
        ((u ++ (stripChars w ++ v)) ++ endLongtable)) ++
      (s1 ++ ((beginLongtable ++ c2 ++ '\x7d' :: (b2 ++ endLongtable)) ++ s2))), 1) := by
  rw [simplify_longtables_two s0 c1 _ s1 c2 b2 s2 hs0 hs1 hs2 hc1 hc2 hb1 hb2
    (strip_minipages_single_ne u a1 a2 w v hu ha1 ha2 hw hv) hmp2,
    strip_minipages_single u a1 a2 w v hu ha1 ha2 hw hv]

/-- C6 witness: the claim applied to a concrete two-table document. -/
theorem C6_witness :
    simplify_longtables
      ("A".data ++ (beginLongtable ++ ("cc".data ++ ('\x7d' ::
        ((" ".data ++ (beginMinipage ++ ("t".data ++ (']' :: '\x7b' ::
          ("2cm".data ++ ('\x7d' :: ("X".data ++ (endMinipage ++ " ".data)))))))) ++
          (endLongtable ++
        ("B".data ++ (beginLongtable ++ ("ll".data ++ ('\x7d' ::
          ("Y".data ++ (endLongtable ++ "C".data)))))))))))) =
    ("A".data ++ ((beginLongtable ++ "cc".data ++ '\x7d' ::
        ((" ".data ++ (stripChars "X".data ++ " ".data)) ++ endLongtable)) ++
      ("B".data ++ ((beginLongtable ++ "ll".data ++ '\x7d' ::
        ("Y".data ++ endLongtable)) ++ "C".data))), 1) :=
  C6_longtable_selective "A".data "cc".data " ".data "t".data "2cm".data "X".data
    " ".data "B".data "ll".data "Y".data "C".data
    (by decide) (by decide) (by decide) (by decide) (by decide) (by decide)
    (by decide) (by decide) (by decide) (by decide) (by decide) (by decide) (by decide)

/-- C7: each of the four passes is a total function (every Lean definition
here is), and when the pass's pattern has no complete match in the document —
in particular when a begin marker is never followed by its end marker — the
pass returns the document completely unchanged with count 0: no partial
rewrite, no error. -/
theorem C7_total_noop (l : LDoc) :
    (¬ quoteMatchable l → remove_quote_blocks l = (l, 0)) ∧
    ((∀ e ∈ UNICODE_MATH_REPLACEMENTS, e.1 ∉ l) → normalize_unicode_math l = (l, 0)) ∧
    ((∀ i, i < l.length → longtableMatchAt (l.drop i) = none) →
      simplify_longtables l = (l, 0)) ∧
    ((∀ i, i < l.length → bibitemMatchAt (l.drop i) = none) →
      normalize_bibliography_items l = (l, 0)) :=
  ⟨fun h => remove_quote_blocks_noop h,
   fun h => normalize_unicode_math_id h,
   fun h => simplify_longtables_noop h,
   fun h => normalize_bibliography_items_noop h⟩

/-- C7 witness: a document with a dangling `\begin{quote}` (no end marker) is
left untouched, with count 0, by all four passes. -/
theorem C7_witness :
    ¬ quoteMatchable "a \\begin{quote} b".data ∧
    remove_quote_blocks "a \\begin{quote} b".data = ("a \\begin{quote} b".data, 0) ∧
    normalize_unicode_math "a \\begin{quote} b".data = ("a \\begin{quote} b".data, 0) ∧
    simplify_longtables "a \\begin{quote} b".data = ("a \\begin{quote} b".data, 0) ∧
    normalize_bibliography_items "a \\begin{quote} b".data =
      ("a \\begin{quote} b".data, 0) := by
  have h := C7_total_noop "a \\begin{quote} b".data
  exact ⟨by decide, h.1 (by decide), h.2.1 (by decide), h.2.2.1 (by decide),
    h.2.2.2 (by decide)⟩

/-- C8: `cleanup_latex` returns exactly the document obtained by threading the
input through the four passes in the fixed order, and a report whose four
fields are the four pass counts; determinism and freedom from I/O and
exceptions are inherent in it being a pure total function. -/
theorem C8_pipeline_refinement (l : LDoc) :
    cleanup_latex l = cleanupPipelineSpec l ∧
    (cleanup_latex l).2.removed_quote_blocks = (remove_quote_blocks l).2 ∧
    (cleanup_latex l).2.unicode_replacements =
      (normalize_unicode_math (remove_quote_blocks l).1).2 ∧
    (cleanup_latex l).2.simplified_longtables =
      (simplify_longtables (normalize_unicode_math (remove_quote_blocks l).1).1).2 ∧
    (cleanup_latex l).2.normalized_bibliography_items =
      (normalize_bibliography_items (simplify_longtables
        (normalize_unicode_math (remove_quote_blocks l).1).1).1).2 ∧
    (cleanup_latex l).1 =
      (normalize_bibliography_items (simplify_longtables
        (normalize_unicode_math (remove_quote_blocks l).1).1).1).1 :=
  by
  have h : cleanupPipelineSpec l =
      ((normalize_bibliography_items (simplify_longtables
          (normalize_unicode_math (remove_quote_blocks l).1).1).1).1,
        ⟨(remove_quote_blocks l).2,
         (normalize_unicode_math (remove_quote_blocks l).1).2,
         (simplify_longtables (normalize_unicode_math (remove_quote_blocks l).1).1).2,
         (normalize_bibliography_items (simplify_longtables
           (normalize_unicode_math (remove_quote_blocks l).1).1).1).2⟩) := rfl
  refine ⟨cleanup_latex_eq l, ?_, ?_, ?_, ?_, ?_⟩ <;> rw [cleanup_latex_eq, h]

/-- C8 witness: the refinement instantiated at a concrete document. -/
theorem C8_witness :
    cleanup_latex "\\begin{quote}x\\end{quote}".data =
      cleanupPipelineSpec "\\begin{quote}x\\end{quote}".data :=
  (C8_pipeline_refinement "\\begin{quote}x\\end{quote}".data).1

/-- C9: `normalize_unicode_math` is exactly the character-wise substitution
homomorphism of the table — its output is the concatenation, over the input
characters in order, of each table-key character's replacement string and of
every other character unchanged — and its count is the number of table-key
characters in the input; each replacement string begins with two literal
backslash characters, and in particular the key `Ʈ` maps to the five-character
string `\\tau`. -/
theorem C9_unicode_hom (l : LDoc) :
    normalize_unicode_math l =
      (unicodeSubst UNICODE_MATH_REPLACEMENTS l, keyCount UNICODE_MATH_REPLACEMENTS l) ∧
    (∀ e ∈ UNICODE_MATH_REPLACEMENTS, e.2.take 2 = ['\\', '\\']) ∧
    lookupRep UNICODE_MATH_REPLACEMENTS 'Ʈ' = some "\\\\tau".data ∧
    ("\\\\tau".data).length = 5 :=
  ⟨normalize_unicode_math_spec l, by decide, by decide, by decide⟩

/-- C9 witness: the homomorphism equation at a concrete input. -/
theorem C9_witness :
    normalize_unicode_math "aℝƮb".data =
      (unicodeSubst UNICODE_MATH_REPLACEMENTS "aℝƮb".data,
       keyCount UNICODE_MATH_REPLACEMENTS "aℝƮb".data) :=
  (C9_unicode_hom "aℝƮb".data).1

/-- C10: for each of the four passes, a returned count of 0 forces the
returned document to be character-for-character the input; in particular
`simplify_longtables` re-emits every matched-but-unsimplified table (column
specification and body) byte-identically. -/
theorem C10_count_zero_identity (l : LDoc) :
    ((remove_quote_blocks l).2 = 0 → (remove_quote_blocks l).1 = l) ∧
    ((normalize_unicode_math l).2 = 0 → (normalize_unicode_math l).1 = l) ∧
    ((simplify_longtables l).2 = 0 → (simplify_longtables l).1 = l) ∧
    ((normalize_bibliography_items l).2 = 0 → (normalize_bibliography_items l).1 = l) :=
  ⟨fun h => remove_quote_blocks_count_zero h,
   fun h => normalize_unicode_math_count_zero h,
   fun h => simplify_longtables_count_zero h,
   fun h => normalize_bibliography_items_count_zero h⟩

/-- C10 witness: a document holding a longtable without minipage wrappers is
matched by the longtable pass, yet reconstructed byte-identically with count
0, and the other passes leave it unchanged as well. -/
theorem C10_witness :
    (simplify_longtables "\\begin{longtable}\x7bcc\x7dx\\end{longtable}".data).2 = 0 ∧
    (simplify_longtables "\\begin{longtable}\x7bcc\x7dx\\end{longtable}".data).1 =
      "\\begin{longtable}\x7bcc\x7dx\\end{longtable}".data ∧
    (remove_quote_blocks "\\begin{longtable}\x7bcc\x7dx\\end{longtable}".data).1 =
      "\\begin{longtable}\x7bcc\x7dx\\end{longtable}".data ∧
    (normalize_unicode_math "\\begin{longtable}\x7bcc\x7dx\\end{longtable}".data).1 =
      "\\begin{longtable}\x7bcc\x7dx\\end{longtable}".data ∧
    (normalize_bibliography_items "\\begin{longtable}\x7bcc\x7dx\\end{longtable}".data).1 =
      "\\begin{longtable}\x7bcc\x7dx\\end{longtable}".data := by
  have h := C10_count_zero_identity "\\begin{longtable}\x7bcc\x7dx\\end{longtable}".data
  exact ⟨by decide, h.2.2.1 (by decide), h.1 (by decide), h.2.1 (by decide),
    h.2.2.2 (by decide)⟩
